import Mathlib

/-!
Verification development for the Sec-2 subject-allocation matcher
(`deferred_acceptance_with_displacement_final4.py`).

The Python program is shallowly embedded below.  Dictionaries whose keys are
only ever read with a default (`course_matches`, `student_course_assignment`,
the per-student marks map, `preference_tracker`) are modelled as total
functions; a list-valued entry that is absent behaves exactly like the empty
list, and an absent scalar entry behaves like `none`.  Numeric cells are
modelled after the helper `_to_num`: `some q` for a value that parses to a
(finite) float, `none` for everything `_to_num` sends to `NaN` (blanks,
`None`, non-numeric strings).  Capacity-like cells that Python treats as
unbounded (`None`, `NaN`, `float('inf')` and values on which `int(...)`
raises) are collapsed to `none`.
-/

namespace SecAlloc

/-- Result of the helper `_to_num`: `some q` for a numeric value, `none` for
`NaN` (blanks, `None`, non-numeric strings such as `'VR'`/`'ABS'`). -/
abbrev Score := Option ℚ

/-- Python `<` between two `_to_num` results: any comparison involving `NaN`
is false. -/
def nanLt : Score → Score → Bool
  | some a, some b => decide (a < b)
  | _, _ => false

/-- Python `>` between two `_to_num` results: any comparison involving `NaN`
is false. -/
def nanGt : Score → Score → Bool
  | some a, some b => decide (b < a)
  | _, _ => false

/-- Python `==` between two `_to_num` results: `NaN == x` is false. -/
def nanEq : Score → Score → Bool
  | some a, some b => decide (a = b)
  | _, _ => false

/-- Order on `_safe_tie_score` values.  `_safe_tie_score` maps non-numeric
scores to `float('-inf')`, so `none` here stands for `-inf` and compares
below every numeric value. -/
def tieLt : Score → Score → Bool
  | none, none => false
  | none, some _ => true
  | some _, none => false
  | some a, some b => decide (a < b)

/-- Python `<` on tuples of `_safe_tie_score` values (lexicographic; the
shorter tuple loses on a tie of the common prefix). -/
def tupLt : List Score → List Score → Bool
  | [], [] => false
  | [], _ :: _ => true
  | _ :: _, [] => false
  | x :: xs, y :: ys => if tieLt x y then true else if tieLt y x then false else tupLt xs ys

/-- `compare_subject_score(student_score, inequality, value)`: fail-closed
comparison; false whenever either operand is `NaN`, and false for any
inequality string other than the two handled ones. -/
def compare_subject_score (s : Score) (ineq : String) (v : Score) : Bool :=
  match s, v with
  | some sq, some vq =>
    if ineq = ">=" then decide (vq ≤ sq)
    else if ineq = "<=" then decide (sq ≤ vq)
    else false
  | _, _ => false

/-- One row of the student workbook after `read_student_data`.
`prefs` holds the raw `Preference i` strings (index `i-1`; `""` for a blank
cell, which Python treats as falsy exactly like an absent key).  `scores` is
the `_to_num` view of the student's marks map (including the synthesized
`"Total Score"` key); an absent subject reads as `none`, matching
`marks.get(subject)` followed by `_to_num`. -/
structure StudentData where
  prefs : List String
  scores : String → Score

/-- `_total_score(name)` of the Python code. -/
def totalScoreOf (marks : String → StudentData) (x : String) : Score :=
  (marks x).scores "Total Score"

/-- The tuple `tuple(_safe_tie_score(student_marks[s].get(subj)) for subj in ts)`. -/
def tieTuple (marks : String → StudentData) (ts : List String) (x : String) : List Score :=
  ts.map (fun subj => (marks x).scores subj)

/-- One entry of `course_data` as built by `read_course_data`.  `capacity` and
`groupConstraint` are `none` when the engine treats them as absent/unbounded
(`None`, `NaN`, `float('inf')`, or a value `int(...)` rejects); `group` is
`none` for an absent/`NaN` group cell (an empty-string group is falsy in
Python and is kept as `some ""`). -/
structure CourseInfo where
  capacity : Option ℚ
  group : Option String
  groupConstraint : Option ℚ
  subjectCriteria : List (String × String × ℚ)
  tiebreakerSubjects : List String
deriving DecidableEq

/-- `course_data`: an insertion-ordered dictionary, modelled as an
association list with unique keys. -/
abbrev Catalog := List (String × CourseInfo)

/-- Python `int(...)` on a finite numeric value: truncation toward zero. -/
def pyInt (q : ℚ) : ℤ := Int.tdiv q.num (q.den : ℤ)

/-- The mutable placement state owned by the matching loop:
`course_matches` (lists default to `[]`), `student_course_assignment`,
`group_capacity_tracker` (written, never read) and the `unplaced_students`
list that `try_place_student_in_course` edits in place. -/
structure PState where
  courseMatches : String → List String
  assign : String → Option String
  groupTracker : String → Option ℤ
  unplaced : List String

/-- The subject-criteria check at the top of `try_place_student_in_course`
(lines 187-192): every criterion must hold under the fail-closed compare,
with the student's score read via `.get(subject, None)`. -/
def meetsCriteria (marks : String → StudentData) (sName : String) (info : CourseInfo) : Bool :=
  info.subjectCriteria.all
    (fun crit => compare_subject_score ((marks sName).scores crit.1) crit.2.1 (some crit.2.2))

/-- `_remove_from_course`: drop `x` from whichever course currently holds it
(guarded by truthiness of the stored course name and list membership), then
delete the assignment entry. -/
def removeFromCourse (x : String) (st : PState) : PState :=
  let st1 :=
    match st.assign x with
    | some prev =>
      if prev ≠ "" ∧ x ∈ st.courseMatches prev then
        { st with courseMatches := fun c => if c = prev then (st.courseMatches c).erase x else st.courseMatches c }
      else st
    | none => st
  { st1 with assign := fun s => if s = x then none else st1.assign s }

/-- `_place_into`: append `sName` to `c` unless already listed, and record the
assignment. -/
def placeInto (sName c : String) (st : PState) : PState :=
  let st1 :=
    if sName ∈ st.courseMatches c then st
    else { st with courseMatches := fun c2 => if c2 = c then st.courseMatches c ++ [sName] else st.courseMatches c2 }
  { st1 with assign := fun s => if s = sName then some c else st1.assign s }

/-- The guard `if student_course_assignment.get(student_name) and
student_course_assignment[student_name] != preferred_course:
_remove_from_course(student_name)` (a stored empty string is falsy). -/
def detachIfElsewhere (sName preferred : String) (st : PState) : PState :=
  match st.assign sName with
  | some p => if p ≠ "" ∧ p ≠ preferred then removeFromCourse sName st else st
  | none => st

/-- `if student_name in unplaced_students: unplaced_students.remove(student_name)`. -/
def removeUnplaced (sName : String) (st : PState) : PState :=
  if sName ∈ st.unplaced then { st with unplaced := st.unplaced.erase sName } else st

/-- The displaced-student removal loop (lines 282-287 and 314-319): scan the
group's courses in catalog order, remove `d` from the first list containing
it and delete `d`'s assignment entry, then stop. -/
def removeDisplacedFromGroup : List String → String → PState → PState
  | [], _, st => st
  | c :: rest, d, st =>
    if d ∈ st.courseMatches c then
      { st with
        courseMatches := fun c2 => if c2 = c then (st.courseMatches c).erase d else st.courseMatches c2,
        assign := fun s => if s = d then none else st.assign s }
    else removeDisplacedFromGroup rest d st

/-- Python `min(xs, key=key)` with a boolean strict-less test: a left fold
that replaces the current minimum only on a strict win. -/
def pyMinBy {α : Type} (lt : α → α → Bool) (key : String → α) : String → List String → String
  | m, [] => m
  | m, y :: ys => pyMinBy lt key (if lt (key y) (key m) then y else m) ys

/-- Outcome of `try_place_student_in_course`: Python's `True` / `False` / a
displaced student's name. -/
inductive PlaceResult where
  | placed
  | rejected
  | displaced (d : String)
deriving DecidableEq, Repr

/-- The courses sharing the preferred course's group, in catalog (insertion)
order: `[cname for cname, info in course_data.items() if info.get('group') == group_name]`. -/
def groupCoursesOf (catalog : Catalog) (g : String) : List String :=
  (catalog.filter (fun e => e.2.group == some g)).map (fun e => e.1)

/-- The non-group placement branch (lines 200-223): enforce the course's own
capacity (absent/unparseable means unbounded), then detach-if-elsewhere,
place, and drop the student from the unplaced list. -/
def tryPlaceUngrouped (sName preferred : String) (info : CourseInfo) (st : PState) :
    PlaceResult × PState :=
  match info.capacity.map pyInt with
  | some cv =>
    if cv ≤ ((st.courseMatches preferred).length : ℤ) then (.rejected, st)
    else (.placed, removeUnplaced sName (placeInto sName preferred (detachIfElsewhere sName preferred st)))
  | none =>
    (.placed, removeUnplaced sName (placeInto sName preferred (detachIfElsewhere sName preferred st)))

/-- The group-has-room placement (lines 251-260): detach-if-elsewhere, place,
record the new group usage in the (write-only) tracker when a limit exists,
and drop the student from the unplaced list. -/
def placeRoomGrouped (sName preferred gname : String) (lim : Option ℤ) (total : ℕ)
    (st : PState) : PState :=
  let st1 := placeInto sName preferred (detachIfElsewhere sName preferred st)
  let st2 :=
    match lim with
    | some _ =>
      { st1 with groupTracker := fun g => if g = gname then some ((total : ℤ) + 1) else st1.groupTracker g }
    | none => st1
  removeUnplaced sName st2

/-- The displacement commit (lines 282-297 and 314-327): remove the chosen
incumbent from its group course, detach the challenger if held elsewhere,
append the challenger to the preferred course unconditionally, record the
assignment, and append the incumbent to the unplaced list. -/
def displaceAndPlace (sName preferred : String) (gcs : List String) (d : String)
    (st : PState) : PState :=
  let st1 := removeDisplacedFromGroup gcs d st
  let st2 := detachIfElsewhere sName preferred st1
  let st3 :=
    { st2 with
      courseMatches := fun c => if c = preferred then st2.courseMatches c ++ [sName] else st2.courseMatches c,
      assign := fun s => if s = sName then some preferred else st2.assign s }
  { st3 with unplaced := st3.unplaced ++ [d] }

/-- The group-is-full arm (lines 262-337): pick the lowest-merit incumbent by
`min` over Total Score (`NaN`-propagating comparisons), displace on a strict
win; on an equal Total Score re-pick the minimum over the whole cohort by the
lexicographic tiebreak tuple and displace exactly when the challenger's tuple
is strictly greater; otherwise reject. -/
def tryPlaceGroupFull (sName : String) (marks : String → StudentData) (preferred : String)
    (info : CourseInfo) (gcs : List String) (cohort : List String) (st : PState) :
    PlaceResult × PState :=
  match cohort with
  | [] => (.rejected, st)
  | c0 :: rest =>
    match totalScoreOf marks sName with
    | none => (.rejected, st)
    | some ct =>
      if nanGt (some ct) (totalScoreOf marks (pyMinBy nanLt (totalScoreOf marks) c0 rest)) then
        (.displaced (pyMinBy nanLt (totalScoreOf marks) c0 rest),
          displaceAndPlace sName preferred gcs (pyMinBy nanLt (totalScoreOf marks) c0 rest) st)
      else if nanEq (some ct) (totalScoreOf marks (pyMinBy nanLt (totalScoreOf marks) c0 rest)) then
        match info.tiebreakerSubjects with
        | [] => (.rejected, st)
        | t0 :: trest =>
          if tupLt (tieTuple marks (t0 :: trest) (pyMinBy tupLt (tieTuple marks (t0 :: trest)) c0 rest))
              (tieTuple marks (t0 :: trest) sName) then
            (.displaced (pyMinBy tupLt (tieTuple marks (t0 :: trest)) c0 rest),
              displaceAndPlace sName preferred gcs (pyMinBy tupLt (tieTuple marks (t0 :: trest)) c0 rest) st)
          else (.rejected, st)
      else (.rejected, st)

/-- The group-constrained arm (lines 225-337): collect the cohort across the
group's courses, place directly while the group constraint (absent or
unparseable means no cap) is not reached, otherwise run the displacement
logic. -/
def cohortOf (catalog : Catalog) (gname : String) (st : PState) : List String :=
  (groupCoursesOf catalog gname).flatMap st.courseMatches

def tryPlaceGrouped (sName : String) (marks : String → StudentData) (preferred : String)
    (catalog : Catalog) (info : CourseInfo) (gname : String) (st : PState) :
    PlaceResult × PState :=
  match info.groupConstraint.map pyInt with
  | none => (.placed, placeRoomGrouped sName preferred gname none (cohortOf catalog gname st).length st)
  | some lim =>
    if ((cohortOf catalog gname st).length : ℤ) < lim then
      (.placed, placeRoomGrouped sName preferred gname (some lim) (cohortOf catalog gname st).length st)
    else tryPlaceGroupFull sName marks preferred info (groupCoursesOf catalog gname)
      (cohortOf catalog gname st) st

/-- `try_place_student_in_course` (lines 149-337).  Returns Python's
`True`/`False`/displaced-name together with the updated placement state. -/
def try_place_student_in_course (sName : String) (marks : String → StudentData)
    (preferred : String) (catalog : Catalog) (st : PState) : PlaceResult × PState :=
  match catalog.lookup preferred with
  | none => (.rejected, st)
  | some info =>
    if meetsCriteria marks sName info then
      match info.group with
      | none => tryPlaceUngrouped sName preferred info st
      | some gname =>
        if gname = "" then tryPlaceUngrouped sName preferred info st
        else tryPlaceGrouped sName marks preferred catalog info gname st
    else (.rejected, st)

/-- The scheduler state of `deferred_acceptance_with_displacement`:
the placement state, the two FIFO queues and `preference_tracker`. -/
structure LoopState where
  ps : PState
  displacedQ : List (String × ℕ)
  arrivals : List (String × ℕ)
  tracker : String → Option ℕ

/-- Initial loop state: every student enqueued at preference 1 in roster
order; everything else empty. -/
def initLS (roster : List String) : LoopState :=
  { ps := { courseMatches := fun _ => [], assign := fun _ => none,
            groupTracker := fun _ => none, unplaced := [] },
    displacedQ := [], arrivals := roster.map (fun s => (s, 1)), tracker := fun _ => none }

/-- The dequeue choice at the top of the loop: the displaced queue has
absolute priority; `none` when both queues are empty. -/
def dequeue (ls : LoopState) : Option (String × ℕ × List (String × ℕ) × List (String × ℕ)) :=
  match ls.displacedQ with
  | e :: r => some (e.1, e.2, r, ls.arrivals)
  | [] =>
    match ls.arrivals with
    | e :: r => some (e.1, e.2, [], r)
    | [] => none

/-- The post-placement bookkeeping of the caller's `result is True` branch
(lines 388-397): remove any previous assignment (which, after a successful
`try_place_student_in_course`, is the course just placed into), then
re-record the assignment and re-append the student. -/
def callerReplace (cur preferred : String) (st : PState) : PState :=
  match st.assign cur with
  | some prior =>
    { st with
      courseMatches := fun c =>
        if c = preferred then
          (if c = prior then (st.courseMatches c).erase cur else st.courseMatches c) ++ [cur]
        else if c = prior then (st.courseMatches c).erase cur else st.courseMatches c,
      assign := fun s =>
        if s = cur then some preferred else if s = cur then none else st.assign s }
  | none =>
    { st with
      courseMatches := fun c => if c = preferred then st.courseMatches c ++ [cur] else st.courseMatches c,
      assign := fun s => if s = cur then some preferred else st.assign s }

/-- One loop iteration given the dequeued item `(cur, k)` and the remaining
queues (lines 362-408).  `preference_tracker[cur]` is set to `k` first; an
exhausted student is appended to the unplaced list; a blank preference
re-enqueues at `k+1`; otherwise the placement transaction runs and its result
drives the queueing.  The displaced student is re-enqueued one past their
tracked preference. -/
def trackSet (t : String → Option ℕ) (cur : String) (k : ℕ) : String → Option ℕ :=
  fun x => if x = cur then some k else t x

/-- `marks.get(f'Preference {k}')` followed by the falsy test: a blank cell
and an out-of-range index both behave like `""`. -/
def prefAt (marks : String → StudentData) (cur : String) (k : ℕ) : String :=
  (marks cur).prefs.getD (k - 1) ""

def stepFrom (marks : String → StudentData) (catalog : Catalog) (P : ℕ) (ls : LoopState)
    (cur : String) (k : ℕ) (dq aq : List (String × ℕ)) : LoopState :=
  if P < k then
    { ps := { ls.ps with unplaced := ls.ps.unplaced ++ [cur] },
      displacedQ := dq, arrivals := aq, tracker := trackSet ls.tracker cur k }
  else
    if prefAt marks cur k = "" then
      { ps := ls.ps, displacedQ := dq, arrivals := aq ++ [(cur, k + 1)],
        tracker := trackSet ls.tracker cur k }
    else
      match try_place_student_in_course cur marks (prefAt marks cur k) catalog ls.ps with
      | (.placed, st1) =>
        { ps := callerReplace cur (prefAt marks cur k) st1, displacedQ := dq, arrivals := aq,
          tracker := trackSet ls.tracker cur k }
      | (.displaced d, st1) =>
        { ps := st1, displacedQ := dq ++ [(d, (trackSet ls.tracker cur k d).getD 0 + 1)],
          arrivals := aq, tracker := trackSet ls.tracker cur k }
      | (.rejected, st1) =>
        { ps := st1, displacedQ := dq, arrivals := aq ++ [(cur, k + 1)],
          tracker := trackSet ls.tracker cur k }

/-- One iteration of the while loop (no-op on empty queues). -/
def step (marks : String → StudentData) (catalog : Catalog) (P : ℕ) (ls : LoopState) : LoopState :=
  match dequeue ls with
  | none => ls
  | some (cur, k, dq, aq) => stepFrom marks catalog P ls cur k dq aq

/-- Fuel-indexed iteration of the loop; the fuel proven sufficient below, so
this computes the loop's terminal state. -/
def run (marks : String → StudentData) (catalog : Catalog) (P : ℕ) :
    ℕ → LoopState → LoopState
  | 0, ls => ls
  | f + 1, ls =>
    if ls.displacedQ = [] ∧ ls.arrivals = [] then ls
    else run marks catalog P f (step marks catalog P ls)

/-- Both work queues are drained. -/
def isTerminal (ls : LoopState) : Prop :=
  ls.displacedQ = [] ∧ ls.arrivals = []

/-- `deferred_acceptance_with_displacement`: run the loop from the seeded
state; `roster` is the insertion-ordered key list of `student_marks`.  The
fuel `|roster| * (P + |roster|)` is proven sufficient for termination below. -/
def deferred_acceptance_with_displacement (roster : List String)
    (marks : String → StudentData) (catalog : Catalog) (P : ℕ) : LoopState :=
  run marks catalog P (roster.length * (P + roster.length)) (initLS roster)

/-- The capacity resolved by `read_course_data` (lines 45-52): `val` for a
numeric cell, `infinite` for `float('inf')`. -/
inductive RawCapacity where
  | val (q : ℚ)
  | infinite
deriving DecidableEq, Repr

/-- Lines 45-52 of `read_course_data`: a present `Capacity` cell is kept; a
missing (`NaN`) one falls back to the `Group Constraint` cell, and to
`float('inf')` when that is missing too.  Cells are `none` when `pd.notna`
fails. -/
def read_course_capacity (capCell gcCell : Option ℚ) : RawCapacity :=
  match capCell with
  | some c => .val c
  | none =>
    match gcCell with
    | some g => .val g
    | none => .infinite

/-! ### Order facts about the comparison helpers -/

theorem nanLt_trans {a b c : Score} (h1 : nanLt a b = true) (h2 : nanLt b c = true) :
    nanLt a c = true := by
  cases a <;> cases b <;> cases c <;> simp_all [nanLt]
  exact lt_trans h1 h2

theorem nanLt_irrefl (a : Score) : nanLt a a = false := by
  cases a <;> simp [nanLt]

theorem tieLt_trans {a b c : Score} (h1 : tieLt a b = true) (h2 : tieLt b c = true) :
    tieLt a c = true := by
  cases a <;> cases b <;> cases c <;> simp_all [tieLt]
  exact lt_trans h1 h2

theorem tieLt_irrefl (a : Score) : tieLt a a = false := by
  cases a <;> simp [tieLt]

theorem tieLt_total {a b : Score} (h1 : tieLt a b = false) (h2 : tieLt b a = false) : a = b := by
  cases a <;> cases b <;> simp_all [tieLt]
  exact le_antisymm h2 h1

theorem tupLt_irrefl (l : List Score) : tupLt l l = false := by
  induction l with
  | nil => rfl
  | cons x xs ih => simp [tupLt, tieLt_irrefl, ih]

theorem tupLt_cons_iff {x y : Score} {xs ys : List Score} :
    tupLt (x :: xs) (y :: ys) = true ↔
      (tieLt x y = true ∨ (tieLt x y = false ∧ tieLt y x = false ∧ tupLt xs ys = true)) := by
  simp only [tupLt]
  by_cases h1 : tieLt x y = true <;> by_cases h2 : tieLt y x = true <;> simp [h1, h2]

theorem tupLt_trans {l1 l2 l3 : List Score} (h1 : tupLt l1 l2 = true)
    (h2 : tupLt l2 l3 = true) : tupLt l1 l3 = true := by
  induction l2 generalizing l1 l3 with
  | nil => cases l1 <;> simp [tupLt] at h1
  | cons y ys ih =>
    cases l3 with
    | nil => simp [tupLt] at h2
    | cons z zs =>
      cases l1 with
      | nil => simp [tupLt]
      | cons x xs =>
        rcases tupLt_cons_iff.mp h1 with hxy | ⟨hxy, hyx, hrec1⟩ <;>
          rcases tupLt_cons_iff.mp h2 with hyz | ⟨hyz, hzy, hrec2⟩
        · exact tupLt_cons_iff.mpr (Or.inl (tieLt_trans hxy hyz))
        · have : y = z := tieLt_total hyz hzy
          subst this
          exact tupLt_cons_iff.mpr (Or.inl hxy)
        · have : x = y := tieLt_total hxy hyx
          subst this
          exact tupLt_cons_iff.mpr (Or.inl hyz)
        · have hxy2 : x = y := tieLt_total hxy hyx
          subst hxy2
          exact tupLt_cons_iff.mpr (Or.inr ⟨hyz, hzy, ih hrec1 hrec2⟩)

/-! ### What Python `min` returns -/

theorem pyMinBy_mem {α : Type} (lt : α → α → Bool) (key : String → α) :
    ∀ (xs : List String) (m : String), pyMinBy lt key m xs ∈ m :: xs := by
  intro xs
  induction xs with
  | nil => intro m; simp [pyMinBy]
  | cons y ys ih =>
    intro m
    simp only [pyMinBy]
    by_cases hc : lt (key y) (key m) = true
    · rw [if_pos hc]
      rcases List.mem_cons.mp (ih y) with h | h
      · rw [h]; simp
      · simp [h]
    · rw [if_neg hc]
      rcases List.mem_cons.mp (ih m) with h | h
      · rw [h]; simp
      · simp [h]

theorem pyMinBy_le {α : Type} (lt : α → α → Bool) (key : String → α)
    (htrans : ∀ a b c, lt a b = true → lt b c = true → lt a c = true) :
    ∀ (xs : List String) (m : String),
      pyMinBy lt key m xs = m ∨ lt (key (pyMinBy lt key m xs)) (key m) = true := by
  intro xs
  induction xs with
  | nil => intro m; left; rfl
  | cons y ys ih =>
    intro m
    simp only [pyMinBy]
    by_cases hc : lt (key y) (key m) = true
    · rw [if_pos hc]
      rcases ih y with h | h
      · right; rw [h]; exact hc
      · right; exact htrans _ _ _ h hc
    · simp only [Bool.not_eq_true] at hc
      rw [if_neg (by simp [hc])]
      exact ih m

theorem pyMinBy_not_lt {α : Type} (lt : α → α → Bool) (key : String → α)
    (htrans : ∀ a b c, lt a b = true → lt b c = true → lt a c = true)
    (hirr : ∀ a, lt a a = false) :
    ∀ (xs : List String) (m y : String), y ∈ m :: xs →
      lt (key y) (key (pyMinBy lt key m xs)) = false := by
  intro xs
  induction xs with
  | nil =>
    intro m y hy
    simp only [List.mem_singleton] at hy
    subst hy
    simp [pyMinBy, hirr]
  | cons x rest ih =>
    intro m y hy
    simp only [pyMinBy]
    by_cases hc : lt (key x) (key m) = true
    · rw [if_pos hc]
      rcases List.mem_cons.mp hy with h | h
      · subst h
        by_contra hlt
        simp only [Bool.not_eq_false] at hlt
        have hxr : lt (key x) (key (pyMinBy lt key x rest)) = false :=
          ih x x (List.mem_cons_self x rest)
        have := htrans _ _ _ hc hlt
        rw [this] at hxr
        exact Bool.false_ne_true hxr.symm
      · exact ih x y (by
          rcases List.mem_cons.mp h with h2 | h2
          · subst h2; exact List.mem_cons_self y rest
          · exact List.mem_cons.mpr (Or.inr h2))
    · simp only [Bool.not_eq_true] at hc
      rw [if_neg (by simp [hc])]
      rcases List.mem_cons.mp hy with h | h
      · subst h; exact ih y y (List.mem_cons_self y rest)
      rcases List.mem_cons.mp h with h2 | h2
      · subst h2
        by_contra hlt
        simp only [Bool.not_eq_false] at hlt
        rcases pyMinBy_le lt key htrans rest m with he | he
        · rw [he] at hlt
          rw [hc] at hlt
          exact absurd hlt Bool.false_ne_true
        · have h3 := htrans _ _ _ hlt he
          rw [hc] at h3
          exact absurd h3 Bool.false_ne_true
      · exact ih m y (List.mem_cons.mpr (Or.inr h2))

/-! ### State-transformer lemmas for the placement transaction -/

theorem detachIfElsewhere_of_unassigned {sName preferred : String} {st : PState}
    (h : st.assign sName = none) : detachIfElsewhere sName preferred st = st := by
  unfold detachIfElsewhere
  rw [h]

theorem placeInto_of_not_mem {sName c : String} {st : PState}
    (h : sName ∉ st.courseMatches c) :
    placeInto sName c st =
      { st with
        courseMatches := fun c2 => if c2 = c then st.courseMatches c ++ [sName] else st.courseMatches c2,
        assign := fun s => if s = sName then some c else st.assign s } := by
  unfold placeInto
  rw [if_neg h]

theorem removeUnplaced_courseMatches (sName : String) (st : PState) :
    (removeUnplaced sName st).courseMatches = st.courseMatches := by
  unfold removeUnplaced; split <;> rfl

theorem removeUnplaced_assign (sName : String) (st : PState) :
    (removeUnplaced sName st).assign = st.assign := by
  unfold removeUnplaced; split <;> rfl

/-- The common shape of the state produced by every `Placed` branch of the
transaction when the student is currently unassigned. -/
def placedState (sName preferred : String) (st : PState) : PState :=
  { st with
    courseMatches := fun c => if c = preferred then st.courseMatches preferred ++ [sName] else st.courseMatches c,
    assign := fun x => if x = sName then some preferred else st.assign x }

theorem placeRoomGrouped_courseMatches {sName preferred gname : String} {lim : Option ℤ}
    {total : ℕ} {st : PState} (hun : st.assign sName = none)
    (hnm : sName ∉ st.courseMatches preferred) :
    (placeRoomGrouped sName preferred gname lim total st).courseMatches
      = (placedState sName preferred st).courseMatches := by
  unfold placeRoomGrouped
  rw [detachIfElsewhere_of_unassigned hun, placeInto_of_not_mem hnm]
  cases lim <;> simp [removeUnplaced_courseMatches, placedState]

theorem placeRoomGrouped_assign {sName preferred gname : String} {lim : Option ℤ}
    {total : ℕ} {st : PState} (hun : st.assign sName = none)
    (hnm : sName ∉ st.courseMatches preferred) :
    (placeRoomGrouped sName preferred gname lim total st).assign
      = (placedState sName preferred st).assign := by
  unfold placeRoomGrouped
  rw [detachIfElsewhere_of_unassigned hun, placeInto_of_not_mem hnm]
  cases lim <;> simp [removeUnplaced_assign, placedState]

theorem removeDisplacedFromGroup_spec {d cd : String} {st : PState} {gcs : List String}
    (hex : ∃ c ∈ gcs, d ∈ st.courseMatches c)
    (huniq : ∀ c, d ∈ st.courseMatches c → c = cd) :
    removeDisplacedFromGroup gcs d st =
      { st with
        courseMatches := fun c => if c = cd then (st.courseMatches cd).erase d else st.courseMatches c,
        assign := fun x => if x = d then none else st.assign x } := by
  induction gcs with
  | nil => simp at hex
  | cons c rest ih =>
    by_cases hm : d ∈ st.courseMatches c
    · have hc : c = cd := huniq c hm
      subst hc
      simp only [removeDisplacedFromGroup, if_pos hm]
    · simp only [removeDisplacedFromGroup, if_neg hm]
      apply ih
      rcases hex with ⟨c2, hc2, hm2⟩
      rcases List.mem_cons.mp hc2 with h | h
      · exact absurd hm2 (by rw [← h] at hm; exact hm)
      · exact ⟨c2, h, hm2⟩

/-- The state produced by a displacement commit when the challenger is
unassigned and the incumbent `d` sits (only) in course `cd`. -/
def displacedState (sName preferred d cd : String) (st : PState) : PState :=
  { st with
    courseMatches := fun c =>
      if c = preferred then
        (if c = cd then (st.courseMatches cd).erase d else st.courseMatches c) ++ [sName]
      else if c = cd then (st.courseMatches cd).erase d else st.courseMatches c,
    assign := fun x => if x = sName then some preferred else if x = d then none else st.assign x,
    unplaced := st.unplaced ++ [d] }

theorem displaceAndPlace_spec {sName preferred d cd : String} {gcs : List String} {st : PState}
    (hex : ∃ c ∈ gcs, d ∈ st.courseMatches c)
    (huniq : ∀ c, d ∈ st.courseMatches c → c = cd)
    (hun : st.assign sName = none) (hne : sName ≠ d) :
    displaceAndPlace sName preferred gcs d st = displacedState sName preferred d cd st := by
  unfold displaceAndPlace
  rw [removeDisplacedFromGroup_spec hex huniq]
  simp only []
  rw [@detachIfElsewhere_of_unassigned sName preferred (PState.mk
      (fun c => if c = cd then (st.courseMatches cd).erase d else st.courseMatches c)
      (fun x => if x = d then none else st.assign x) st.groupTracker st.unplaced)
      (by simp only []; rw [if_neg hne]; exact hun)]
  rfl


theorem try_place_view (sName : String) (marks : String → StudentData) (preferred : String)
    (catalog : Catalog) (st : PState)
    (hun : st.assign sName = none) (hnm : ∀ c, sName ∉ st.courseMatches c)
    (hma : ∀ c x, x ∈ st.courseMatches c → st.assign x = some c) :
    try_place_student_in_course sName marks preferred catalog st = (.rejected, st) ∨
    (∃ info, catalog.lookup preferred = some info ∧ meetsCriteria marks sName info = true ∧
      (try_place_student_in_course sName marks preferred catalog st).1 = .placed ∧
      (try_place_student_in_course sName marks preferred catalog st).2.courseMatches
        = (placedState sName preferred st).courseMatches ∧
      (try_place_student_in_course sName marks preferred catalog st).2.assign
        = (placedState sName preferred st).assign ∧
      ((info.group = none ∨ info.group = some "") →
        ∀ cv, info.capacity.map pyInt = some cv → ((st.courseMatches preferred).length : ℤ) < cv)) ∨
    (∃ info gname d cd, catalog.lookup preferred = some info ∧
      meetsCriteria marks sName info = true ∧
      info.group = some gname ∧ gname ≠ "" ∧ d ≠ sName ∧ st.assign d = some cd ∧
      (try_place_student_in_course sName marks preferred catalog st).1 = .displaced d ∧
      (try_place_student_in_course sName marks preferred catalog st).2.courseMatches
        = (displacedState sName preferred d cd st).courseMatches ∧
      (try_place_student_in_course sName marks preferred catalog st).2.assign
        = (displacedState sName preferred d cd st).assign) := by
  have hplace : (removeUnplaced sName (placeInto sName preferred (detachIfElsewhere sName preferred st))).courseMatches
        = (placedState sName preferred st).courseMatches ∧
      (removeUnplaced sName (placeInto sName preferred (detachIfElsewhere sName preferred st))).assign
        = (placedState sName preferred st).assign := by
    rw [removeUnplaced_courseMatches, removeUnplaced_assign,
      detachIfElsewhere_of_unassigned hun, placeInto_of_not_mem (hnm preferred)]
    exact ⟨rfl, rfl⟩
  have hdisp : ∀ gname, ∀ d ∈ cohortOf catalog gname st, ∃ cd,
      d ≠ sName ∧ st.assign d = some cd ∧
      displaceAndPlace sName preferred (groupCoursesOf catalog gname) d st
        = displacedState sName preferred d cd st := by
    intro gname d hd
    unfold cohortOf at hd
    obtain ⟨c, hcg, hdc⟩ := List.mem_flatMap.mp hd
    have hcd : st.assign d = some c := hma c d hdc
    have hne : d ≠ sName := by
      intro h
      rw [h, hun] at hcd
      cases hcd
    have huniq : ∀ c2, d ∈ st.courseMatches c2 → c2 = c := by
      intro c2 h2
      have h3 := hma c2 d h2
      rw [hcd] at h3
      exact (Option.some.inj h3).symm
    exact ⟨c, hne, hcd, displaceAndPlace_spec ⟨c, hcg, hdc⟩ huniq hun (fun h => hne h.symm)⟩
  unfold try_place_student_in_course tryPlaceUngrouped tryPlaceGrouped tryPlaceGroupFull
  split
  · left; rfl
  · rename_i info heql
    split
    · rename_i hmeets
      split
      · rename_i heqg
        -- info.group = none : ungrouped branch
        split
        · rename_i cv0 heqcap
          split
          · left; rfl
          · rename_i hnotle
            right; left
            refine ⟨info, heql, hmeets, rfl, hplace.1, hplace.2, ?_⟩
            intro _ cv hcv
            rw [heqcap] at hcv
            have : cv0 = cv := Option.some.inj hcv
            omega
        · rename_i heqcap
          right; left
          refine ⟨info, heql, hmeets, rfl, hplace.1, hplace.2, ?_⟩
          intro _ cv hcv
          rw [heqcap] at hcv
          cases hcv
      · rename_i gname heqg
        split
        · rename_i hge
          -- gname = "" : ungrouped branch again
          split
          · rename_i cv0 heqcap
            split
            · left; rfl
            · rename_i hnotle
              right; left
              refine ⟨info, heql, hmeets, rfl, hplace.1, hplace.2, ?_⟩
              intro _ cv hcv
              rw [heqcap] at hcv
              have : cv0 = cv := Option.some.inj hcv
              omega
          · rename_i heqcap
            right; left
            refine ⟨info, heql, hmeets, rfl, hplace.1, hplace.2, ?_⟩
            intro _ cv hcv
            rw [heqcap] at hcv
            cases hcv
        · rename_i hge
          split
          · -- no group constraint: place with room
            right; left
            refine ⟨info, heql, hmeets, rfl,
              placeRoomGrouped_courseMatches hun (hnm preferred),
              placeRoomGrouped_assign hun (hnm preferred), ?_⟩
            rename_i heqgc
            rintro (h | h) <;> rw [heqg] at h
            · cases h
            · exact absurd (Option.some.inj h) hge
          · rename_i lim heqgc
            split
            · right; left
              refine ⟨info, heql, hmeets, rfl,
                placeRoomGrouped_courseMatches hun (hnm preferred),
                placeRoomGrouped_assign hun (hnm preferred), ?_⟩
              rintro (h | h) <;> rw [heqg] at h
              · cases h
              · exact absurd (Option.some.inj h) hge
            · -- group full
              split
              · left; rfl
              · rename_i c0 rest heqcoh
                split
                · left; rfl
                · rename_i ct heqct
                  split
                  · -- strict total-score win
                    obtain ⟨cd, hne, hcd, hspec⟩ := hdisp gname
                      (pyMinBy nanLt (totalScoreOf marks) c0 rest)
                      (by rw [heqcoh]; exact pyMinBy_mem nanLt (totalScoreOf marks) rest c0)
                    right; right
                    refine ⟨info, gname, _, cd, heql, hmeets, heqg, hge, hne, hcd, rfl, ?_, ?_⟩
                    · rw [hspec]
                    · rw [hspec]
                  · split
                    · split
                      · left; rfl
                      · rename_i t0 trest heqts
                        split
                        · -- tiebreak win
                          obtain ⟨cd, hne, hcd, hspec⟩ := hdisp gname
                            (pyMinBy tupLt (tieTuple marks (t0 :: trest)) c0 rest)
                            (by rw [heqcoh]; exact pyMinBy_mem tupLt (tieTuple marks (t0 :: trest)) rest c0)
                          right; right
                          refine ⟨info, gname, _, cd, heql, hmeets, heqg, hge, hne, hcd, rfl, ?_, ?_⟩
                          · rw [hspec]
                          · rw [hspec]
                        · left; rfl
                    · left; rfl
    · left; rfl

theorem try_place_total_cases (sName : String) (marks : String → StudentData)
    (preferred : String) (catalog : Catalog) (st : PState) :
    try_place_student_in_course sName marks preferred catalog st = (.rejected, st) ∨
    (try_place_student_in_course sName marks preferred catalog st).1 = .placed ∨
    (∃ d, (try_place_student_in_course sName marks preferred catalog st).1 = .displaced d) := by
  unfold try_place_student_in_course tryPlaceUngrouped tryPlaceGrouped tryPlaceGroupFull
  split
  · left; rfl
  · split
    · split
      · split
        · split
          · left; rfl
          · right; left; rfl
        · right; left; rfl
      · split
        · split
          · split
            · left; rfl
            · right; left; rfl
          · right; left; rfl
        · split
          · right; left; rfl
          · split
            · right; left; rfl
            · split
              · left; rfl
              · split
                · left; rfl
                · split
                  · right; right; exact ⟨_, rfl⟩
                  · split
                    · split
                      · left; rfl
                      · split
                        · right; right; exact ⟨_, rfl⟩
                        · left; rfl
                    · left; rfl
    · left; rfl

theorem try_place_rejected_id (sName : String) (marks : String → StudentData)
    (preferred : String) (catalog : Catalog) (st : PState)
    (hres : (try_place_student_in_course sName marks preferred catalog st).1 = .rejected) :
    (try_place_student_in_course sName marks preferred catalog st).2 = st := by
  rcases try_place_total_cases sName marks preferred catalog st with h | h | ⟨d, h⟩
  · rw [h]
  · rw [hres] at h; cases h
  · rw [hres] at h; cases h

theorem callerReplace_spec {cur preferred : String} {st0 st1 : PState}
    (hm : st1.courseMatches = (placedState cur preferred st0).courseMatches)
    (ha : st1.assign = (placedState cur preferred st0).assign)
    (hnm : cur ∉ st0.courseMatches preferred) :
    (callerReplace cur preferred st1).courseMatches = (placedState cur preferred st0).courseMatches ∧
    (callerReplace cur preferred st1).assign = (placedState cur preferred st0).assign := by
  have hac : st1.assign cur = some preferred := by rw [ha]; simp [placedState]
  unfold callerReplace
  rw [hac]
  constructor
  · funext c
    simp only []
    rw [hm]
    simp only [placedState]
    by_cases hc : c = preferred
    · subst hc
      simp only [if_true]
      rw [List.erase_append_right _ hnm]
      simp
    · simp [hc]
  · funext x
    simp only []
    rw [ha]
    simp only [placedState]
    by_cases hx : x = cur <;> simp [hx]

/-! ### The loop invariant -/

/-- A course that takes the non-group branch of the transaction: its group
cell is absent or the (falsy) empty string. -/
def ungroupedInfo (info : CourseInfo) : Prop :=
  info.group = none ∨ info.group = some ""

/-- The invariant maintained by every iteration of the matching loop. -/
structure Inv (marks : String → StudentData) (catalog : Catalog) (P : ℕ)
    (roster : List String) (ls : LoopState) : Prop where
  qokD : ∀ e ∈ ls.displacedQ, 1 ≤ e.2 ∧ e.2 ≤ P + 1 ∧ e.1 ∈ roster ∧ ls.ps.assign e.1 = none
  qokA : ∀ e ∈ ls.arrivals, 1 ≤ e.2 ∧ e.2 ≤ P + 1 ∧ e.1 ∈ roster ∧ ls.ps.assign e.1 = none
  qnd : (ls.displacedQ.map Prod.fst ++ ls.arrivals.map Prod.fst).Nodup
  am : ∀ x c, ls.ps.assign x = some c → x ∈ ls.ps.courseMatches c
  ma : ∀ c x, x ∈ ls.ps.courseMatches c → ls.ps.assign x = some c
  mnd : ∀ c, (ls.ps.courseMatches c).Nodup
  aroster : ∀ x c, ls.ps.assign x = some c → x ∈ roster
  tplaced : ∀ x c, ls.ps.assign x = some c →
    ∃ p, ls.tracker x = some p ∧ 1 ≤ p ∧ p ≤ P ∧ prefAt marks x p = c
  crit : ∀ c x, x ∈ ls.ps.courseMatches c →
    ∃ info, catalog.lookup c = some info ∧ meetsCriteria marks x info = true
  capOk : ∀ c info cv, catalog.lookup c = some info → ungroupedInfo info →
    info.capacity.map pyInt = some cv → ((ls.ps.courseMatches c).length : ℤ) ≤ max cv 0

theorem not_mem_of_unassigned {st : PState} {x : String}
    (hma : ∀ c y, y ∈ st.courseMatches c → st.assign y = some c)
    (h : st.assign x = none) : ∀ c, x ∉ st.courseMatches c := by
  intro c hmem
  have h2 := hma c x hmem
  rw [h] at h2
  cases h2

theorem placedState_coh {st : PState} {cur preferred : String}
    (ham : ∀ x c, st.assign x = some c → x ∈ st.courseMatches c)
    (hma : ∀ c x, x ∈ st.courseMatches c → st.assign x = some c)
    (hnd : ∀ c, (st.courseMatches c).Nodup)
    (hun : st.assign cur = none) :
    (∀ x c, (placedState cur preferred st).assign x = some c →
        x ∈ (placedState cur preferred st).courseMatches c) ∧
    (∀ c x, x ∈ (placedState cur preferred st).courseMatches c →
        (placedState cur preferred st).assign x = some c) ∧
    (∀ c, ((placedState cur preferred st).courseMatches c).Nodup) := by
  have hnm : ∀ c, cur ∉ st.courseMatches c := not_mem_of_unassigned hma hun
  simp only [placedState]
  refine ⟨?_, ?_, ?_⟩
  · intro x c hx
    by_cases hxc : x = cur
    · subst hxc
      rw [if_pos rfl] at hx
      have hc : c = preferred := (Option.some.inj hx).symm
      subst hc
      simp
    · rw [if_neg hxc] at hx
      have hmem := ham x c hx
      by_cases hcp : c = preferred
      · subst hcp
        simp [List.mem_append, hmem]
      · rw [if_neg hcp]
        exact hmem
  · intro c x hx
    by_cases hcp : c = preferred
    · subst hcp
      rw [if_pos rfl] at hx
      rcases List.mem_append.mp hx with h | h
      · have hxa := hma _ _ h
        have hxcur : x ≠ cur := fun he => hnm _ (he ▸ h)
        rw [if_neg hxcur]
        exact hxa
      · simp only [List.mem_singleton] at h
        subst h
        rw [if_pos rfl]
    · rw [if_neg hcp] at hx
      have hxa := hma _ _ hx
      have hxcur : x ≠ cur := fun he => hnm _ (he ▸ hx)
      rw [if_neg hxcur]
      exact hxa
  · intro c
    by_cases hcp : c = preferred
    · subst hcp
      rw [if_pos rfl]
      rw [List.nodup_append]
      exact ⟨hnd _, List.nodup_singleton _, fun b hb hb2 => by
        simp only [List.mem_singleton] at hb2
        subst hb2
        exact hnm _ hb⟩
    · rw [if_neg hcp]
      exact hnd c

theorem displacedState_coh {st : PState} {cur preferred d cd : String}
    (ham : ∀ x c, st.assign x = some c → x ∈ st.courseMatches c)
    (hma : ∀ c x, x ∈ st.courseMatches c → st.assign x = some c)
    (hnd : ∀ c, (st.courseMatches c).Nodup)
    (hun : st.assign cur = none) (hcd : st.assign d = some cd) (hdc : d ≠ cur) :
    (∀ x c, (displacedState cur preferred d cd st).assign x = some c →
        x ∈ (displacedState cur preferred d cd st).courseMatches c) ∧
    (∀ c x, x ∈ (displacedState cur preferred d cd st).courseMatches c →
        (displacedState cur preferred d cd st).assign x = some c) ∧
    (∀ c, ((displacedState cur preferred d cd st).courseMatches c).Nodup) := by
  have hnm : ∀ c, cur ∉ st.courseMatches c := not_mem_of_unassigned hma hun
  have hdmem : ∀ c, d ∈ st.courseMatches c → c = cd := by
    intro c hm
    have h2 := hma c d hm
    rw [hcd] at h2
    exact (Option.some.inj h2).symm
  have hEmem : ∀ c x, x ∈ (if c = cd then (st.courseMatches cd).erase d else st.courseMatches c) →
      x ∈ st.courseMatches c ∧ x ≠ d ∧ x ≠ cur := by
    intro c x hx
    by_cases hc : c = cd
    · rw [if_pos hc] at hx
      have h2 := (hnd cd).mem_erase_iff.mp hx
      rw [hc]
      exact ⟨h2.2, h2.1, fun he => hnm _ (he ▸ h2.2)⟩
    · rw [if_neg hc] at hx
      refine ⟨hx, fun he => hc (hdmem c (he ▸ hx)), fun he => hnm _ (he ▸ hx)⟩
  have hEmem2 : ∀ c x, x ∈ st.courseMatches c → x ≠ d →
      x ∈ (if c = cd then (st.courseMatches cd).erase d else st.courseMatches c) := by
    intro c x hx hxd
    by_cases hc : c = cd
    · rw [if_pos hc]
      exact (hnd cd).mem_erase_iff.mpr ⟨hxd, hc ▸ hx⟩
    · rw [if_neg hc]
      exact hx
  simp only [displacedState]
  refine ⟨?_, ?_, ?_⟩
  · intro x c hx
    by_cases hxc : x = cur
    · subst hxc
      rw [if_pos rfl] at hx
      have hc : c = preferred := (Option.some.inj hx).symm
      subst hc
      simp
    · rw [if_neg hxc] at hx
      by_cases hxd : x = d
      · subst hxd
        rw [if_pos rfl] at hx
        cases hx
      · rw [if_neg hxd] at hx
        have hmem := hEmem2 c x (ham x c hx) hxd
        by_cases hcp : c = preferred
        · subst hcp
          simp only [if_pos rfl]
          exact List.mem_append.mpr (Or.inl hmem)
        · rw [if_neg hcp]
          exact hmem
  · intro c x hx
    by_cases hcp : c = preferred
    · subst hcp
      rw [if_pos rfl] at hx
      rcases List.mem_append.mp hx with h | h
      · obtain ⟨hmem, hxd, hxcur⟩ := hEmem _ _ h
        rw [if_neg hxcur, if_neg hxd]
        exact hma _ _ hmem
      · simp only [List.mem_singleton] at h
        subst h
        rw [if_pos rfl]
    · rw [if_neg hcp] at hx
      obtain ⟨hmem, hxd, hxcur⟩ := hEmem _ _ hx
      rw [if_neg hxcur, if_neg hxd]
      exact hma _ _ hmem
  · intro c
    have hEnd : ∀ c2, (if c2 = cd then (st.courseMatches cd).erase d else st.courseMatches c2).Nodup := by
      intro c2
      by_cases hc : c2 = cd
      · rw [if_pos hc]
        exact (hnd cd).erase d
      · rw [if_neg hc]
        exact hnd c2
    by_cases hcp : c = preferred
    · subst hcp
      rw [if_pos rfl]
      rw [List.nodup_append]
      refine ⟨hEnd _, List.nodup_singleton _, fun b hb hb2 => ?_⟩
      simp only [List.mem_singleton] at hb2
      subst hb2
      exact (hEmem _ _ hb).2.2 rfl
    · rw [if_neg hcp]
      exact hEnd c


theorem inv_drop {marks : String → StudentData} {catalog : Catalog} {P : ℕ}
    {roster : List String} {ls : LoopState} {cur : String} {k : ℕ}
    {dq aq : List (String × ℕ)} {u : List String}
    (hInv : Inv marks catalog P roster ls)
    (hcurU : ls.ps.assign cur = none)
    (hQdq : ∀ e ∈ dq, 1 ≤ e.2 ∧ e.2 ≤ P + 1 ∧ e.1 ∈ roster ∧ ls.ps.assign e.1 = none)
    (hQaq : ∀ e ∈ aq, 1 ≤ e.2 ∧ e.2 ≤ P + 1 ∧ e.1 ∈ roster ∧ ls.ps.assign e.1 = none)
    (hndq : (dq.map Prod.fst ++ aq.map Prod.fst).Nodup) :
    Inv marks catalog P roster
      { ps := { ls.ps with unplaced := u }, displacedQ := dq, arrivals := aq,
        tracker := trackSet ls.tracker cur k } := by
  refine ⟨hQdq, hQaq, hndq, hInv.am, hInv.ma, hInv.mnd, hInv.aroster, ?_, hInv.crit, hInv.capOk⟩
  intro x c hx
  obtain ⟨p, hp, hp1, hpP, hpc⟩ := hInv.tplaced x c hx
  have hxc : x ≠ cur := by
    intro he
    rw [he, hcurU] at hx
    cases hx
  refine ⟨p, ?_, hp1, hpP, hpc⟩
  simp only [trackSet]
  rw [if_neg hxc]
  exact hp

theorem inv_advance {marks : String → StudentData} {catalog : Catalog} {P : ℕ}
    {roster : List String} {ls : LoopState} {cur : String} {k : ℕ}
    {dq aq : List (String × ℕ)}
    (hInv : Inv marks catalog P roster ls)
    (hk1 : 1 ≤ k) (hkP : k ≤ P) (hcurR : cur ∈ roster)
    (hcurU : ls.ps.assign cur = none)
    (hQdq : ∀ e ∈ dq, 1 ≤ e.2 ∧ e.2 ≤ P + 1 ∧ e.1 ∈ roster ∧ ls.ps.assign e.1 = none)
    (hQaq : ∀ e ∈ aq, 1 ≤ e.2 ∧ e.2 ≤ P + 1 ∧ e.1 ∈ roster ∧ ls.ps.assign e.1 = none)
    (hndq : (dq.map Prod.fst ++ aq.map Prod.fst).Nodup)
    (hcurNot : cur ∉ dq.map Prod.fst ++ aq.map Prod.fst) :
    Inv marks catalog P roster
      { ps := ls.ps, displacedQ := dq, arrivals := aq ++ [(cur, k + 1)],
        tracker := trackSet ls.tracker cur k } := by
  refine ⟨hQdq, ?_, ?_, hInv.am, hInv.ma, hInv.mnd, hInv.aroster, ?_, hInv.crit, hInv.capOk⟩
  · intro e he
    rcases List.mem_append.mp he with h | h
    · exact hQaq e h
    · simp only [List.mem_singleton] at h
      subst h
      exact ⟨by omega, by omega, hcurR, hcurU⟩
  · simp only [List.map_append, List.map_cons, List.map_nil]
    have hperm : List.Perm (dq.map Prod.fst ++ (aq.map Prod.fst ++ [cur]))
        (cur :: (dq.map Prod.fst ++ aq.map Prod.fst)) := by
      rw [← List.append_assoc]
      exact List.perm_append_singleton cur (dq.map Prod.fst ++ aq.map Prod.fst)
    exact hperm.nodup_iff.mpr (List.nodup_cons.mpr ⟨hcurNot, hndq⟩)
  · intro x c hx
    obtain ⟨p, hp, hp1, hpP, hpc⟩ := hInv.tplaced x c hx
    have hxc : x ≠ cur := by
      intro he
      rw [he, hcurU] at hx
      cases hx
    refine ⟨p, ?_, hp1, hpP, hpc⟩
    simp only [trackSet]
    rw [if_neg hxc]
    exact hp



theorem inv_placed {marks : String → StudentData} {catalog : Catalog} {P : ℕ}
    {roster : List String} {ls : LoopState} {cur : String} {k : ℕ}
    {dq aq : List (String × ℕ)} {st1 : PState}
    (hInv : Inv marks catalog P roster ls)
    (hk1 : 1 ≤ k) (hkP : k ≤ P) (hcurR : cur ∈ roster)
    (hcurU : ls.ps.assign cur = none)
    (hQdq : ∀ e ∈ dq, 1 ≤ e.2 ∧ e.2 ≤ P + 1 ∧ e.1 ∈ roster ∧ ls.ps.assign e.1 = none)
    (hQaq : ∀ e ∈ aq, 1 ≤ e.2 ∧ e.2 ≤ P + 1 ∧ e.1 ∈ roster ∧ ls.ps.assign e.1 = none)
    (hndq : (dq.map Prod.fst ++ aq.map Prod.fst).Nodup)
    (hcurNot : cur ∉ dq.map Prod.fst ++ aq.map Prod.fst)
    (heq : try_place_student_in_course cur marks (prefAt marks cur k) catalog ls.ps
      = (.placed, st1)) :
    Inv marks catalog P roster
      { ps := callerReplace cur (prefAt marks cur k) st1, displacedQ := dq, arrivals := aq,
        tracker := trackSet ls.tracker cur k } := by
  have hnm : ∀ c, cur ∉ ls.ps.courseMatches c := not_mem_of_unassigned hInv.ma hcurU
  rcases try_place_view cur marks (prefAt marks cur k) catalog ls.ps hcurU hnm hInv.ma with
    hrej | ⟨info, hlook, hmeets, _hres, hm, ha, hcap⟩ |
    ⟨info, gname, d, cd, _h1, _h2, _h3, _h4, _h5, _h6, hres1, _h7, _h8⟩
  · rw [heq] at hrej
    injection hrej with h1 h2
    cases h1
  · have hm2 : st1.courseMatches = (placedState cur (prefAt marks cur k) ls.ps).courseMatches := by
      rw [heq] at hm
      exact hm
    have ha2 : st1.assign = (placedState cur (prefAt marks cur k) ls.ps).assign := by
      rw [heq] at ha
      exact ha
    obtain ⟨hcrM, hcrA⟩ := callerReplace_spec hm2 ha2 (hnm (prefAt marks cur k))
    obtain ⟨hamN, hmaN, hndN⟩ := placedState_coh hInv.am hInv.ma hInv.mnd hcurU
    refine ⟨?_, ?_, hndq, ?_, ?_, ?_, ?_, ?_, ?_, ?_⟩
    · intro e he
      obtain ⟨h1, h2, h3, h4⟩ := hQdq e he
      refine ⟨h1, h2, h3, ?_⟩
      have hmem : e.1 ∈ dq.map Prod.fst := List.mem_map_of_mem Prod.fst he
      have hne : e.1 ≠ cur := by
        intro hh
        exact hcurNot (by rw [← hh]; exact List.mem_append_left _ hmem)
      rw [hcrA]
      simp only [placedState]
      rw [if_neg hne]
      exact h4
    · intro e he
      obtain ⟨h1, h2, h3, h4⟩ := hQaq e he
      refine ⟨h1, h2, h3, ?_⟩
      have hmem : e.1 ∈ aq.map Prod.fst := List.mem_map_of_mem Prod.fst he
      have hne : e.1 ≠ cur := by
        intro hh
        exact hcurNot (by rw [← hh]; exact List.mem_append_right _ hmem)
      rw [hcrA]
      simp only [placedState]
      rw [if_neg hne]
      exact h4
    · intro x c hx
      rw [hcrA] at hx
      rw [hcrM]
      exact hamN x c hx
    · intro c x hx
      rw [hcrM] at hx
      rw [hcrA]
      exact hmaN c x hx
    · intro c
      rw [hcrM]
      exact hndN c
    · intro x c hx
      rw [hcrA] at hx
      simp only [placedState] at hx
      by_cases hxc : x = cur
      · rw [hxc]
        exact hcurR
      · rw [if_neg hxc] at hx
        exact hInv.aroster x c hx
    · intro x c hx
      rw [hcrA] at hx
      simp only [placedState] at hx
      by_cases hxc : x = cur
      · rw [hxc] at hx ⊢
        rw [if_pos rfl] at hx
        have hc : prefAt marks cur k = c := Option.some.inj hx
        refine ⟨k, ?_, hk1, hkP, hc⟩
        simp [trackSet]
      · rw [if_neg hxc] at hx
        obtain ⟨p, hp, hp1, hpP, hpc⟩ := hInv.tplaced x c hx
        refine ⟨p, ?_, hp1, hpP, hpc⟩
        simp only [trackSet]
        rw [if_neg hxc]
        exact hp
    · intro c x hx
      rw [hcrM] at hx
      simp only [placedState] at hx
      by_cases hcp : c = prefAt marks cur k
      · rw [if_pos hcp] at hx
        rw [hcp]
        rcases List.mem_append.mp hx with h | h
        · exact hInv.crit (prefAt marks cur k) x h
        · simp only [List.mem_singleton] at h
          rw [h]
          exact ⟨info, hlook, hmeets⟩
      · rw [if_neg hcp] at hx
        exact hInv.crit c x hx
    · intro c info2 cv hl2 hug hcv
      rw [hcrM]
      simp only [placedState]
      by_cases hcp : c = prefAt marks cur k
      · rw [if_pos hcp]
        have hinfo : info2 = info := by
          rw [hcp, hlook] at hl2
          exact (Option.some.inj hl2).symm
        subst hinfo
        have hlt := hcap hug cv hcv
        simp only [List.length_append, List.length_singleton]
        push_cast
        omega
      · rw [if_neg hcp]
        exact hInv.capOk c info2 cv hl2 hug hcv
  · rw [heq] at hres1
    simp at hres1



theorem inv_displaced {marks : String → StudentData} {catalog : Catalog} {P : ℕ}
    {roster : List String} {ls : LoopState} {cur : String} {k : ℕ}
    {dq aq : List (String × ℕ)} {st1 : PState} {d0 : String}
    (hInv : Inv marks catalog P roster ls)
    (hk1 : 1 ≤ k) (hkP : k ≤ P) (hcurR : cur ∈ roster)
    (hcurU : ls.ps.assign cur = none)
    (hQdq : ∀ e ∈ dq, 1 ≤ e.2 ∧ e.2 ≤ P + 1 ∧ e.1 ∈ roster ∧ ls.ps.assign e.1 = none)
    (hQaq : ∀ e ∈ aq, 1 ≤ e.2 ∧ e.2 ≤ P + 1 ∧ e.1 ∈ roster ∧ ls.ps.assign e.1 = none)
    (hndq : (dq.map Prod.fst ++ aq.map Prod.fst).Nodup)
    (hcurNot : cur ∉ dq.map Prod.fst ++ aq.map Prod.fst)
    (heq : try_place_student_in_course cur marks (prefAt marks cur k) catalog ls.ps
      = (.displaced d0, st1)) :
    Inv marks catalog P roster
      { ps := st1,
        displacedQ := dq ++ [(d0, (trackSet ls.tracker cur k d0).getD 0 + 1)],
        arrivals := aq, tracker := trackSet ls.tracker cur k } := by
  have hnm : ∀ c, cur ∉ ls.ps.courseMatches c := not_mem_of_unassigned hInv.ma hcurU
  rcases try_place_view cur marks (prefAt marks cur k) catalog ls.ps hcurU hnm hInv.ma with
    hrej | ⟨_i1, _h1, _h2, hres1, _h3, _h4, _h5⟩ |
    ⟨info, gname, d, cd, hlook, hmeets, hg, hge, hdneq, hcd, hres1, hm, ha⟩
  · rw [heq] at hrej
    injection hrej with h1 h2
    cases h1
  · rw [heq] at hres1
    simp at hres1
  · rw [heq] at hres1
    have hres2 : PlaceResult.displaced d0 = PlaceResult.displaced d := hres1
    injection hres2 with hdd
    subst hdd
    have hm2 : st1.courseMatches
        = (displacedState cur (prefAt marks cur k) d0 cd ls.ps).courseMatches := by
      rw [heq] at hm
      exact hm
    have ha2 : st1.assign = (displacedState cur (prefAt marks cur k) d0 cd ls.ps).assign := by
      rw [heq] at ha
      exact ha
    obtain ⟨hamN, hmaN, hndN⟩ := displacedState_coh hInv.am hInv.ma hInv.mnd hcurU hcd hdneq
    obtain ⟨p, hpd, hp1, hpP, hpc⟩ := hInv.tplaced d0 cd hcd
    have htr : trackSet ls.tracker cur k d0 = some p := by
      show (if d0 = cur then some k else ls.tracker d0) = some p
      rw [if_neg hdneq]
      exact hpd
    have hdR : d0 ∈ roster := hInv.aroster d0 cd hcd
    have hdnotq : d0 ∉ dq.map Prod.fst ++ aq.map Prod.fst := by
      intro hmem
      rcases List.mem_append.mp hmem with h | h
      · obtain ⟨e, he, hfst⟩ := List.mem_map.mp h
        have h4 := (hQdq e he).2.2.2
        rw [hfst] at h4
        rw [h4] at hcd
        cases hcd
      · obtain ⟨e, he, hfst⟩ := List.mem_map.mp h
        have h4 := (hQaq e he).2.2.2
        rw [hfst] at h4
        rw [h4] at hcd
        cases hcd
    have hassignD : ∀ x, x ≠ cur → x ≠ d0 → st1.assign x = ls.ps.assign x := by
      intro x hxc hxd
      rw [ha2]
      simp only [displacedState]
      rw [if_neg hxc, if_neg hxd]
    refine ⟨?_, ?_, ?_, ?_, ?_, ?_, ?_, ?_, ?_, ?_⟩
    · intro e he
      rcases List.mem_append.mp he with h | h
      · obtain ⟨h1, h2, h3, h4⟩ := hQdq e h
        refine ⟨h1, h2, h3, ?_⟩
        have hmem : e.1 ∈ dq.map Prod.fst := List.mem_map_of_mem Prod.fst h
        have hnec : e.1 ≠ cur := by
          intro hh
          exact hcurNot (by rw [← hh]; exact List.mem_append_left _ hmem)
        have hned : e.1 ≠ d0 := by
          intro hh
          exact hdnotq (by rw [← hh]; exact List.mem_append_left _ hmem)
        rw [hassignD e.1 hnec hned]
        exact h4
      · simp only [List.mem_singleton] at h
        subst h
        refine ⟨by omega, ?_, hdR, ?_⟩
        · rw [htr]
          simp only [Option.getD_some]
          omega
        · rw [ha2]
          simp only [displacedState]
          simp [hdneq]
    · intro e he
      obtain ⟨h1, h2, h3, h4⟩ := hQaq e he
      refine ⟨h1, h2, h3, ?_⟩
      have hmem : e.1 ∈ aq.map Prod.fst := List.mem_map_of_mem Prod.fst he
      have hnec : e.1 ≠ cur := by
        intro hh
        exact hcurNot (by rw [← hh]; exact List.mem_append_right _ hmem)
      have hned : e.1 ≠ d0 := by
        intro hh
        exact hdnotq (by rw [← hh]; exact List.mem_append_right _ hmem)
      rw [hassignD e.1 hnec hned]
      exact h4
    · simp only [List.map_append, List.map_cons, List.map_nil]
      have hperm : List.Perm ((dq.map Prod.fst ++ [d0]) ++ aq.map Prod.fst)
          (d0 :: (dq.map Prod.fst ++ aq.map Prod.fst)) := by
        rw [List.append_assoc, List.singleton_append]
        exact List.perm_middle
      exact hperm.nodup_iff.mpr (List.nodup_cons.mpr ⟨hdnotq, hndq⟩)
    · intro x c hx
      rw [ha2] at hx
      rw [hm2]
      exact hamN x c hx
    · intro c x hx
      rw [hm2] at hx
      rw [ha2]
      exact hmaN c x hx
    · intro c
      rw [hm2]
      exact hndN c
    · intro x c hx
      rw [ha2] at hx
      simp only [displacedState] at hx
      by_cases hxc : x = cur
      · rw [hxc]
        exact hcurR
      · rw [if_neg hxc] at hx
        by_cases hxd : x = d0
        · rw [if_pos hxd] at hx
          cases hx
        · rw [if_neg hxd] at hx
          exact hInv.aroster x c hx
    · intro x c hx
      rw [ha2] at hx
      simp only [displacedState] at hx
      by_cases hxc : x = cur
      · rw [if_pos hxc] at hx
        have hc : prefAt marks cur k = c := Option.some.inj hx
        rw [hxc]
        refine ⟨k, by simp [trackSet], hk1, hkP, hc⟩
      · rw [if_neg hxc] at hx
        by_cases hxd : x = d0
        · rw [if_pos hxd] at hx
          cases hx
        · rw [if_neg hxd] at hx
          obtain ⟨p2, hp2, hp21, hp2P, hp2c⟩ := hInv.tplaced x c hx
          refine ⟨p2, ?_, hp21, hp2P, hp2c⟩
          show (if x = cur then some k else ls.tracker x) = some p2
          rw [if_neg hxc]
          exact hp2
    · intro c x hx
      rw [hm2] at hx
      simp only [displacedState] at hx
      have hmem : x ∈ ls.ps.courseMatches c ∨ (x = cur ∧ c = prefAt marks cur k) := by
        by_cases hcp : c = prefAt marks cur k
        · rw [if_pos hcp] at hx
          rcases List.mem_append.mp hx with h | h
          · left
            by_cases hccd : c = cd
            · rw [if_pos hccd] at h
              rw [hccd]
              exact List.mem_of_mem_erase h
            · rw [if_neg hccd] at h
              exact h
          · right
            simp only [List.mem_singleton] at h
            exact ⟨h, hcp⟩
        · rw [if_neg hcp] at hx
          left
          by_cases hccd : c = cd
          · rw [if_pos hccd] at hx
            rw [hccd]
            exact List.mem_of_mem_erase hx
          · rw [if_neg hccd] at hx
            exact hx
      rcases hmem with h | ⟨hx2, hc2⟩
      · exact hInv.crit c x h
      · rw [hx2, hc2]
        exact ⟨info, hlook, hmeets⟩
    · intro c info2 cv hl2 hug hcv
      rw [hm2]
      simp only [displacedState]
      by_cases hcp : c = prefAt marks cur k
      · exfalso
        rw [hcp, hlook] at hl2
        have hinfo : info2 = info := (Option.some.inj hl2).symm
        subst hinfo
        rcases hug with h | h
        · rw [hg] at h
          cases h
        · rw [hg] at h
          exact hge (Option.some.inj h)
      · rw [if_neg hcp]
        by_cases hccd : c = cd
        · rw [if_pos hccd]
          have h1 := hInv.capOk c info2 cv hl2 hug hcv
          rw [hccd] at h1
          have h2 := Int.ofNat_le.mpr (List.length_erase_le d0 (ls.ps.courseMatches cd))
          omega
        · rw [if_neg hccd]
          exact hInv.capOk c info2 cv hl2 hug hcv



theorem inv_stepFrom {marks : String → StudentData} {catalog : Catalog} {P : ℕ}
    {roster : List String} {ls : LoopState} {cur : String} {k : ℕ}
    {dq aq : List (String × ℕ)}
    (hInv : Inv marks catalog P roster ls)
    (hk1 : 1 ≤ k) (hkP : k ≤ P + 1) (hcurR : cur ∈ roster)
    (hcurU : ls.ps.assign cur = none)
    (hQdq : ∀ e ∈ dq, 1 ≤ e.2 ∧ e.2 ≤ P + 1 ∧ e.1 ∈ roster ∧ ls.ps.assign e.1 = none)
    (hQaq : ∀ e ∈ aq, 1 ≤ e.2 ∧ e.2 ≤ P + 1 ∧ e.1 ∈ roster ∧ ls.ps.assign e.1 = none)
    (hndq : (dq.map Prod.fst ++ aq.map Prod.fst).Nodup)
    (hcurNot : cur ∉ dq.map Prod.fst ++ aq.map Prod.fst) :
    Inv marks catalog P roster (stepFrom marks catalog P ls cur k dq aq) := by
  unfold stepFrom
  split
  · exact inv_drop hInv hcurU hQdq hQaq hndq
  · rename_i hPk
    have hkP2 : k ≤ P := by omega
    split
    · exact inv_advance hInv hk1 hkP2 hcurR hcurU hQdq hQaq hndq hcurNot
    · split
      · rename_i st1 heq
        exact inv_placed hInv hk1 hkP2 hcurR hcurU hQdq hQaq hndq hcurNot heq
      · rename_i d0 st1 heq
        exact inv_displaced hInv hk1 hkP2 hcurR hcurU hQdq hQaq hndq hcurNot heq
      · rename_i st1 heq
        have hst : st1 = ls.ps := by
          have h2 := try_place_rejected_id cur marks (prefAt marks cur k) catalog ls.ps
            (by rw [heq])
          rw [heq] at h2
          exact h2
        rw [hst]
        exact inv_advance hInv hk1 hkP2 hcurR hcurU hQdq hQaq hndq hcurNot

theorem dequeue_spec {ls : LoopState} {cur : String} {k : ℕ} {dq aq : List (String × ℕ)}
    (h : dequeue ls = some (cur, k, dq, aq)) :
    (ls.displacedQ = (cur, k) :: dq ∧ aq = ls.arrivals) ∨
    (ls.displacedQ = [] ∧ dq = [] ∧ ls.arrivals = (cur, k) :: aq) := by
  unfold dequeue at h
  split at h
  · rename_i e r heq2
    simp only [Option.some.injEq, Prod.mk.injEq] at h
    obtain ⟨h1, h2, h3, h4⟩ := h
    left
    constructor
    · rw [heq2, ← h1, ← h2, ← h3]
    · exact h4.symm
  · rename_i heq2
    split at h
    · rename_i e r heq3
      simp only [Option.some.injEq, Prod.mk.injEq] at h
      obtain ⟨h1, h2, h3, h4⟩ := h
      right
      refine ⟨heq2, h3.symm, ?_⟩
      rw [heq3, ← h1, ← h2, ← h4]
    · cases h

theorem inv_step {marks : String → StudentData} {catalog : Catalog} {P : ℕ}
    {roster : List String} {ls : LoopState}
    (hInv : Inv marks catalog P roster ls) :
    Inv marks catalog P roster (step marks catalog P ls) := by
  unfold step
  split
  · exact hInv
  · rename_i out cur k dq aq heq
    rcases dequeue_spec heq with ⟨hD, hA⟩ | ⟨hD, hdq, hA⟩
    · obtain ⟨hk1, hkP, hcurR, hcurU⟩ := hInv.qokD (cur, k) (by rw [hD]; exact List.mem_cons_self _ _)
      have hQdq : ∀ e ∈ dq, 1 ≤ e.2 ∧ e.2 ≤ P + 1 ∧ e.1 ∈ roster ∧ ls.ps.assign e.1 = none :=
        fun e he => hInv.qokD e (by rw [hD]; exact List.mem_cons_of_mem _ he)
      have hQaq : ∀ e ∈ aq, 1 ≤ e.2 ∧ e.2 ≤ P + 1 ∧ e.1 ∈ roster ∧ ls.ps.assign e.1 = none :=
        fun e he => hInv.qokA e (by rw [← hA]; exact he)
      have hqnd := hInv.qnd
      rw [hD, ← hA] at hqnd
      simp only [List.map_cons, List.cons_append] at hqnd
      obtain ⟨hcurNot, hndq⟩ := List.nodup_cons.mp hqnd
      exact inv_stepFrom hInv hk1 hkP hcurR hcurU hQdq hQaq hndq hcurNot
    · obtain ⟨hk1, hkP, hcurR, hcurU⟩ := hInv.qokA (cur, k) (by rw [hA]; exact List.mem_cons_self _ _)
      have hQdq : ∀ e ∈ dq, 1 ≤ e.2 ∧ e.2 ≤ P + 1 ∧ e.1 ∈ roster ∧ ls.ps.assign e.1 = none := by
        intro e he
        rw [hdq] at he
        cases he
      have hQaq : ∀ e ∈ aq, 1 ≤ e.2 ∧ e.2 ≤ P + 1 ∧ e.1 ∈ roster ∧ ls.ps.assign e.1 = none :=
        fun e he => hInv.qokA e (by rw [hA]; exact List.mem_cons_of_mem _ he)
      have hqnd := hInv.qnd
      rw [hD, hA] at hqnd
      simp only [List.map_cons, List.nil_append, List.map_nil] at hqnd
      obtain ⟨hcurNot2, hndq2⟩ := List.nodup_cons.mp hqnd
      have hndq : (dq.map Prod.fst ++ aq.map Prod.fst).Nodup := by
        rw [hdq]
        simp only [List.map_nil, List.nil_append]
        exact hndq2
      have hcurNot : cur ∉ dq.map Prod.fst ++ aq.map Prod.fst := by
        rw [hdq]
        simp only [List.map_nil, List.nil_append]
        exact hcurNot2
      exact inv_stepFrom hInv hk1 hkP hcurR hcurU hQdq hQaq hndq hcurNot

theorem inv_init (marks : String → StudentData) (catalog : Catalog) (P : ℕ)
    {roster : List String} (hnd : roster.Nodup) :
    Inv marks catalog P roster (initLS roster) := by
  refine ⟨?_, ?_, ?_, ?_, ?_, ?_, ?_, ?_, ?_, ?_⟩
  · intro e he
    cases he
  · intro e he
    obtain ⟨s, hs, hes⟩ := List.mem_map.mp he
    rw [← hes]
    exact ⟨le_refl 1, by omega, hs, rfl⟩
  · simp only [initLS, List.map_nil, List.nil_append, List.map_map]
    have : (Prod.fst ∘ fun s => (s, 1)) = fun s : String => s := rfl
    rw [this]
    simpa using hnd
  · intro x c hx
    cases hx
  · intro c x hx
    cases hx
  · intro c
    exact List.nodup_nil
  · intro x c hx
    cases hx
  · intro x c hx
    cases hx
  · intro c x hx
    cases hx
  · intro c info cv _ _ _
    simp only [initLS, List.length_nil]
    exact le_max_right cv 0

theorem inv_run {marks : String → StudentData} {catalog : Catalog} {P : ℕ}
    {roster : List String} (f : ℕ) {ls : LoopState}
    (hInv : Inv marks catalog P roster ls) :
    Inv marks catalog P roster (run marks catalog P f ls) := by
  induction f generalizing ls with
  | zero => exact hInv
  | succ f ih =>
    show Inv marks catalog P roster
      (if ls.displacedQ = [] ∧ ls.arrivals = [] then ls else run marks catalog P f (step marks catalog P ls))
    split
    · exact hInv
    · exact ih (inv_step hInv)



/-! ### Termination potential -/

def qWeight (P : ℕ) (q : List (String × ℕ)) : ℕ :=
  (q.map (fun e => P + 2 - e.2)).sum

def pContrib (P : ℕ) (ls : LoopState) (x : String) : ℕ :=
  if (ls.ps.assign x).isSome then P + 1 - (ls.tracker x).getD 0 else 0

def phi (P : ℕ) (roster : List String) (ls : LoopState) : ℕ :=
  qWeight P ls.displacedQ + qWeight P ls.arrivals + ∑ x ∈ roster.toFinset, pContrib P ls x

theorem qWeight_append (P : ℕ) (l1 l2 : List (String × ℕ)) :
    qWeight P (l1 ++ l2) = qWeight P l1 + qWeight P l2 := by
  unfold qWeight
  rw [List.map_append, List.sum_append]

theorem qWeight_cons (P : ℕ) (e : String × ℕ) (l : List (String × ℕ)) :
    qWeight P (e :: l) = (P + 2 - e.2) + qWeight P l := by
  unfold qWeight
  rw [List.map_cons, List.sum_cons]

theorem sum_congr_except_one {t : Finset String} {f g : String → ℕ} {x : String}
    (hx : x ∈ t) (h : ∀ y ∈ t, y ≠ x → f y = g y) :
    (∑ y ∈ t, f y) + g x = (∑ y ∈ t, g y) + f x := by
  rw [← Finset.add_sum_erase t f hx, ← Finset.add_sum_erase t g hx]
  have heq : ∑ y ∈ t.erase x, f y = ∑ y ∈ t.erase x, g y :=
    Finset.sum_congr rfl (fun y hy =>
      h y (Finset.mem_of_mem_erase hy) (Finset.ne_of_mem_erase hy))
  omega

theorem sum_congr_except_two {t : Finset String} {f g : String → ℕ} {x y : String}
    (hx : x ∈ t) (hy : y ∈ t) (hxy : x ≠ y)
    (h : ∀ z ∈ t, z ≠ x → z ≠ y → f z = g z) :
    (∑ z ∈ t, f z) + g x + g y = (∑ z ∈ t, g z) + f x + f y := by
  have hy2 : y ∈ t.erase x := Finset.mem_erase.mpr ⟨Ne.symm hxy, hy⟩
  rw [← Finset.add_sum_erase t f hx, ← Finset.add_sum_erase t g hx,
    ← Finset.add_sum_erase _ f hy2, ← Finset.add_sum_erase _ g hy2]
  have heq : ∑ z ∈ (t.erase x).erase y, f z = ∑ z ∈ (t.erase x).erase y, g z :=
    Finset.sum_congr rfl (fun z hz =>
      h z (Finset.mem_of_mem_erase (Finset.mem_of_mem_erase hz))
        (Finset.ne_of_mem_erase (Finset.mem_of_mem_erase hz))
        (Finset.ne_of_mem_erase hz))
  omega



theorem pContrib_congr {P : ℕ} {ls1 ls2 : LoopState} {x : String}
    (ha : ls1.ps.assign x = ls2.ps.assign x)
    (ht : ls1.ps.assign x = none ∨ ls1.tracker x = ls2.tracker x) :
    pContrib P ls1 x = pContrib P ls2 x := by
  unfold pContrib
  rcases ht with h | h
  · rw [← ha, h]
    simp
  · rw [← ha, h]

theorem phi_stepFrom_lt {marks : String → StudentData} {catalog : Catalog} {P : ℕ}
    {roster : List String} {ls : LoopState} {cur : String} {k : ℕ}
    {dq aq : List (String × ℕ)}
    (hInv : Inv marks catalog P roster ls)
    (hk1 : 1 ≤ k) (hkP : k ≤ P + 1) (hcurR : cur ∈ roster)
    (hcurU : ls.ps.assign cur = none)
    (hsplit : qWeight P ls.displacedQ + qWeight P ls.arrivals
      = (P + 2 - k) + (qWeight P dq + qWeight P aq)) :
    phi P roster (stepFrom marks catalog P ls cur k dq aq) < phi P roster ls := by
  have hnm : ∀ c, cur ∉ ls.ps.courseMatches c := not_mem_of_unassigned hInv.ma hcurU
  have hcurF : cur ∈ roster.toFinset := List.mem_toFinset.mpr hcurR
  unfold stepFrom
  split
  · -- preference depth exhausted
    rename_i hPk
    have hsum : (∑ x ∈ roster.toFinset, pContrib P
        { ps := { ls.ps with unplaced := ls.ps.unplaced ++ [cur] },
          displacedQ := dq, arrivals := aq, tracker := trackSet ls.tracker cur k } x)
        = ∑ x ∈ roster.toFinset, pContrib P ls x := by
      refine Finset.sum_congr rfl (fun y _ => ?_)
      refine pContrib_congr rfl ?_
      by_cases hyc : y = cur
      · left
        rw [hyc]
        exact hcurU
      · right
        show trackSet ls.tracker cur k y = ls.tracker y
        simp [trackSet, hyc]
    unfold phi
    simp only []
    rw [hsum, hsplit]
    omega
  · rename_i hPk
    have hkP2 : k ≤ P := by omega
    have hsumid : ∀ (u : List (String × ℕ)),
        (∑ x ∈ roster.toFinset, pContrib P
          { ps := ls.ps, displacedQ := dq, arrivals := u, tracker := trackSet ls.tracker cur k } x)
        = ∑ x ∈ roster.toFinset, pContrib P ls x := by
      intro u
      refine Finset.sum_congr rfl (fun y _ => ?_)
      refine pContrib_congr rfl ?_
      by_cases hyc : y = cur
      · left
        rw [hyc]
        exact hcurU
      · right
        show trackSet ls.tracker cur k y = ls.tracker y
        simp [trackSet, hyc]
    split
    · -- blank preference: re-enqueue at k+1
      unfold phi
      simp only []
      rw [hsumid, hsplit, qWeight_append, qWeight_cons]
      unfold qWeight
      simp only [List.map_nil, List.sum_nil]
      omega
    · split
      · -- placed
        rename_i st1 heq
        rcases try_place_view cur marks (prefAt marks cur k) catalog ls.ps hcurU hnm hInv.ma with
          hrej | ⟨info, hlook, hmeets, _hres, hm, ha, hcap⟩ |
          ⟨info, gname, d, cd, _h1, _h2, _h3, _h4, _h5, _h6, hres1, _h7, _h8⟩
        · rw [heq] at hrej
          injection hrej with h1 h2
          cases h1
        · have ha2 : st1.assign = (placedState cur (prefAt marks cur k) ls.ps).assign := by
            rw [heq] at ha
            exact ha
          have hm2 : st1.courseMatches = (placedState cur (prefAt marks cur k) ls.ps).courseMatches := by
            rw [heq] at hm
            exact hm
          obtain ⟨hcrM, hcrA⟩ := callerReplace_spec hm2 ha2 (hnm (prefAt marks cur k))
          have hnew : pContrib P
              { ps := callerReplace cur (prefAt marks cur k) st1, displacedQ := dq,
                arrivals := aq, tracker := trackSet ls.tracker cur k } cur = P + 1 - k := by
            unfold pContrib
            simp only []
            rw [hcrA]
            simp [placedState, trackSet]
          have hold : pContrib P ls cur = 0 := by
            unfold pContrib
            rw [hcurU]
            simp
          have hagree : ∀ y ∈ roster.toFinset, y ≠ cur →
              pContrib P
                { ps := callerReplace cur (prefAt marks cur k) st1, displacedQ := dq,
                  arrivals := aq, tracker := trackSet ls.tracker cur k } y = pContrib P ls y := by
            intro y _ hyc
            refine pContrib_congr ?_ (Or.inr ?_)
            · show (callerReplace cur (prefAt marks cur k) st1).assign y = ls.ps.assign y
              rw [hcrA]
              simp [placedState, hyc]
            · show trackSet ls.tracker cur k y = ls.tracker y
              simp [trackSet, hyc]
          have hkey := sum_congr_except_one hcurF hagree
          rw [hnew, hold] at hkey
          unfold phi
          simp only []
          rw [hsplit]
          omega
        · rw [heq] at hres1
          simp at hres1
      · -- displaced
        rename_i d0 st1 heq
        rcases try_place_view cur marks (prefAt marks cur k) catalog ls.ps hcurU hnm hInv.ma with
          hrej | ⟨_i1, _h1, _h2, hres1, _h3, _h4, _h5⟩ |
          ⟨info, gname, d, cd, hlook, hmeets, hg, hge, hdneq, hcd, hres1, hm, ha⟩
        · rw [heq] at hrej
          injection hrej with h1 h2
          cases h1
        · rw [heq] at hres1
          simp at hres1
        · rw [heq] at hres1
          have hres2 : PlaceResult.displaced d0 = PlaceResult.displaced d := hres1
          injection hres2 with hdd
          subst hdd
          have ha2 : st1.assign
              = (displacedState cur (prefAt marks cur k) d0 cd ls.ps).assign := by
            rw [heq] at ha
            exact ha
          obtain ⟨p, hpd, hp1, hpP, hpc⟩ := hInv.tplaced d0 cd hcd
          have htr : trackSet ls.tracker cur k d0 = some p := by
            show (if d0 = cur then some k else ls.tracker d0) = some p
            rw [if_neg hdneq]
            exact hpd
          have hd0F : d0 ∈ roster.toFinset :=
            List.mem_toFinset.mpr (hInv.aroster d0 cd hcd)
          have hnewcur : pContrib P
              { ps := st1, displacedQ := dq ++ [(d0, (trackSet ls.tracker cur k d0).getD 0 + 1)],
                arrivals := aq, tracker := trackSet ls.tracker cur k } cur = P + 1 - k := by
            unfold pContrib
            simp only []
            rw [ha2]
            simp [displacedState, trackSet]
          have hnewd : pContrib P
              { ps := st1, displacedQ := dq ++ [(d0, (trackSet ls.tracker cur k d0).getD 0 + 1)],
                arrivals := aq, tracker := trackSet ls.tracker cur k } d0 = 0 := by
            unfold pContrib
            simp only []
            rw [ha2]
            simp [displacedState, hdneq]
          have holdcur : pContrib P ls cur = 0 := by
            unfold pContrib
            rw [hcurU]
            simp
          have holdd : pContrib P ls d0 = P + 1 - p := by
            unfold pContrib
            rw [hcd, hpd]
            simp
          have hagree : ∀ z ∈ roster.toFinset, z ≠ cur → z ≠ d0 →
              pContrib P
                { ps := st1,
                  displacedQ := dq ++ [(d0, (trackSet ls.tracker cur k d0).getD 0 + 1)],
                  arrivals := aq, tracker := trackSet ls.tracker cur k } z = pContrib P ls z := by
            intro z _ hzc hzd
            refine pContrib_congr ?_ (Or.inr ?_)
            · show st1.assign z = ls.ps.assign z
              rw [ha2]
              simp [displacedState, hzc, hzd]
            · show trackSet ls.tracker cur k z = ls.tracker z
              simp [trackSet, hzc]
          have hkey := sum_congr_except_two hcurF hd0F (Ne.symm hdneq) hagree
          rw [hnewcur, hnewd, holdcur, holdd] at hkey
          have hgetd : (trackSet ls.tracker cur k d0).getD 0 + 1 = p + 1 := by
            rw [htr]
            rfl
          rw [hgetd] at hkey
          unfold phi
          simp only []
          rw [hgetd, qWeight_append, qWeight_cons, hsplit]
          have hnil : qWeight P ([] : List (String × ℕ)) = 0 := rfl
          rw [hnil]
          omega
      · -- rejected
        rename_i st1 heq
        have hst : st1 = ls.ps := by
          have h2 := try_place_rejected_id cur marks (prefAt marks cur k) catalog ls.ps
            (by rw [heq])
          rw [heq] at h2
          exact h2
        rw [hst]
        unfold phi
        simp only []
        rw [hsumid, hsplit, qWeight_append, qWeight_cons]
        unfold qWeight
        simp only [List.map_nil, List.sum_nil]
        omega



theorem dequeue_eq_none {ls : LoopState} (h : dequeue ls = none) :
    ls.displacedQ = [] ∧ ls.arrivals = [] := by
  unfold dequeue at h
  split at h
  · cases h
  · rename_i hD
    split at h
    · cases h
    · rename_i hA
      exact ⟨hD, hA⟩

theorem phi_step_lt {marks : String → StudentData} {catalog : Catalog} {P : ℕ}
    {roster : List String} {ls : LoopState}
    (hInv : Inv marks catalog P roster ls)
    (hnt : ¬(ls.displacedQ = [] ∧ ls.arrivals = [])) :
    phi P roster (step marks catalog P ls) < phi P roster ls := by
  unfold step
  split
  · rename_i heq
    exact absurd (dequeue_eq_none heq) hnt
  · rename_i out cur k dq aq heq
    rcases dequeue_spec heq with ⟨hD, hA⟩ | ⟨hD, hdq, hA⟩
    · obtain ⟨hk1, hkP, hcurR, hcurU⟩ := hInv.qokD (cur, k) (by rw [hD]; exact List.mem_cons_self _ _)
      have hsplit : qWeight P ls.displacedQ + qWeight P ls.arrivals
          = (P + 2 - k) + (qWeight P dq + qWeight P aq) := by
        rw [hD, ← hA, qWeight_cons]
        simp only []
        omega
      exact phi_stepFrom_lt hInv hk1 hkP hcurR hcurU hsplit
    · obtain ⟨hk1, hkP, hcurR, hcurU⟩ := hInv.qokA (cur, k) (by rw [hA]; exact List.mem_cons_self _ _)
      have hsplit : qWeight P ls.displacedQ + qWeight P ls.arrivals
          = (P + 2 - k) + (qWeight P dq + qWeight P aq) := by
        rw [hD, hA, hdq, qWeight_cons]
        have hnil : qWeight P ([] : List (String × ℕ)) = 0 := rfl
        rw [hnil]
        simp only []
        omega
      exact phi_stepFrom_lt hInv hk1 hkP hcurR hcurU hsplit

theorem run_terminal_of_fuel {marks : String → StudentData} {catalog : Catalog} {P : ℕ}
    {roster : List String} (f : ℕ) {ls : LoopState}
    (hInv : Inv marks catalog P roster ls) (hf : phi P roster ls ≤ f) :
    isTerminal (run marks catalog P f ls) := by
  induction f generalizing ls with
  | zero =>
    show isTerminal ls
    have h1 : phi P roster ls = 0 := Nat.le_zero.mp hf
    constructor
    · cases hD : ls.displacedQ with
      | nil => rfl
      | cons e r =>
        exfalso
        have he := hInv.qokD e (by rw [hD]; exact List.mem_cons_self _ _)
        have h2 : phi P roster ls = qWeight P ls.displacedQ + qWeight P ls.arrivals
            + ∑ x ∈ roster.toFinset, pContrib P ls x := rfl
        rw [hD, qWeight_cons] at h2
        omega
    · cases hA : ls.arrivals with
      | nil => rfl
      | cons e r =>
        exfalso
        have he := hInv.qokA e (by rw [hA]; exact List.mem_cons_self _ _)
        have h2 : phi P roster ls = qWeight P ls.displacedQ + qWeight P ls.arrivals
            + ∑ x ∈ roster.toFinset, pContrib P ls x := rfl
        rw [hA, qWeight_cons] at h2
        omega
  | succ f ih =>
    show isTerminal (if ls.displacedQ = [] ∧ ls.arrivals = [] then ls
      else run marks catalog P f (step marks catalog P ls))
    by_cases hc : ls.displacedQ = [] ∧ ls.arrivals = []
    · rw [if_pos hc]
      exact hc
    · rw [if_neg hc]
      apply ih (inv_step hInv)
      have h2 := phi_step_lt hInv hc
      omega

theorem terminal_run_succ {marks : String → StudentData} {catalog : Catalog} {P : ℕ}
    (f : ℕ) {ls : LoopState}
    (h : isTerminal (run marks catalog P f ls)) :
    isTerminal (run marks catalog P (f + 1) ls) := by
  induction f generalizing ls with
  | zero =>
    show isTerminal (if ls.displacedQ = [] ∧ ls.arrivals = [] then ls
      else run marks catalog P 0 (step marks catalog P ls))
    have h0 : ls.displacedQ = [] ∧ ls.arrivals = [] := h
    rw [if_pos h0]
    exact h0
  | succ f ih =>
    show isTerminal (if ls.displacedQ = [] ∧ ls.arrivals = [] then ls
      else run marks catalog P (f + 1) (step marks catalog P ls))
    by_cases hc : ls.displacedQ = [] ∧ ls.arrivals = []
    · rw [if_pos hc]
      exact hc
    · rw [if_neg hc]
      apply ih
      have h2 : run marks catalog P (f + 1) ls
          = run marks catalog P f (step marks catalog P ls) := by
        show (if ls.displacedQ = [] ∧ ls.arrivals = [] then ls else _) = _
        rw [if_neg hc]
      rw [h2] at h
      exact h

theorem run_mono {marks : String → StudentData} {catalog : Catalog} {P : ℕ}
    {f g : ℕ} {ls : LoopState} (hfg : f ≤ g)
    (h : isTerminal (run marks catalog P f ls)) :
    isTerminal (run marks catalog P g ls) := by
  induction g, hfg using Nat.le_induction with
  | base => exact h
  | succ g hg ih => exact terminal_run_succ g ih

theorem phi_init (P : ℕ) (roster : List String) :
    phi P roster (initLS roster) = roster.length * (P + 1) := by
  unfold phi initLS
  simp only []
  have h1 : qWeight P ([] : List (String × ℕ)) = 0 := rfl
  have h2 : qWeight P (roster.map (fun s => (s, 1))) = roster.length * (P + 1) := by
    unfold qWeight
    rw [List.map_map]
    have h3 : ((fun e : String × ℕ => P + 2 - e.2) ∘ fun s => (s, 1)) = fun _ => P + 1 := by
      funext s
      simp
    rw [h3]
    induction roster with
    | nil => simp
    | cons s r ih =>
      simp only [List.map_cons, List.sum_cons, List.length_cons]
      rw [ih]
      ring
  have h4 : (∑ x ∈ roster.toFinset, pContrib P (initLS roster) x) = 0 := by
    refine Finset.sum_eq_zero (fun x _ => ?_)
    rfl
  rw [h1, h2]
  have h5 : (∑ x ∈ roster.toFinset, pContrib P
      { ps := { courseMatches := fun _ => [], assign := fun _ => none,
                groupTracker := fun _ => none, unplaced := [] },
        displacedQ := [], arrivals := roster.map (fun s => (s, 1)),
        tracker := fun _ => none } x) = 0 := by
    refine Finset.sum_eq_zero (fun x _ => ?_)
    rfl
  rw [h5]
  omega

/-! ### Concrete inputs used by counterexamples and witnesses -/

/-- The empty placement state (as at the start of the loop). -/
def emptyPS : PState :=
  { courseMatches := fun _ => [], assign := fun _ => none,
    groupTracker := fun _ => none, unplaced := [] }

/-- Roster for the capacity scenario: two students, both ranking only `X`. -/
def marksCapTest : String → StudentData := fun s =>
  if s = "A" then { prefs := ["X"], scores := fun key => if key = "Total Score" then some 10 else none }
  else if s = "B" then { prefs := ["X"], scores := fun key => if key = "Total Score" then some 20 else none }
  else { prefs := [], scores := fun _ => none }

/-- Catalog for the capacity scenario: `X` has its own capacity 1 but belongs
to group `G` with group constraint 2. -/
def catCapTest : Catalog :=
  [("X", { capacity := some 1, group := some "G", groupConstraint := some 2,
           subjectCriteria := [], tiebreakerSubjects := [] })]

def runCapTest : LoopState :=
  deferred_acceptance_with_displacement ["A", "B"] marksCapTest catCapTest 1

/-- Roster for the missing-Total-Score scenario: `A` (Total 50) ranks `X`,
`B` (Total missing) ranks `Y`, `C` (Total 60) ranks `X`. -/
def marksNanTest : String → StudentData := fun s =>
  if s = "A" then { prefs := ["X"], scores := fun key => if key = "Total Score" then some 50 else none }
  else if s = "B" then { prefs := ["Y"], scores := fun _ => none }
  else if s = "C" then { prefs := ["X"], scores := fun key => if key = "Total Score" then some 60 else none }
  else { prefs := [], scores := fun _ => none }

/-- Catalog for the missing-Total-Score scenario: `X` and `Y` share group `G`
with group constraint 2 and no per-course capacity. -/
def catNanTest : Catalog :=
  [("X", { capacity := none, group := some "G", groupConstraint := some 2,
           subjectCriteria := [], tiebreakerSubjects := [] }),
   ("Y", { capacity := none, group := some "G", groupConstraint := some 2,
            subjectCriteria := [], tiebreakerSubjects := [] })]

def runNanTest : LoopState :=
  deferred_acceptance_with_displacement ["A", "B", "C"] marksNanTest catNanTest 1

/-- The loop state of the missing-Total-Score scenario after two iterations:
`A` is placed in `X`, `B` in `Y`, and `C` is about to be processed. -/
def nanState2 : LoopState :=
  run marksNanTest catNanTest 1 2 (initLS ["A", "B", "C"])

/-- Roster for the tiebreak scenario: `A` (Total 80, Math 50) ranks `X`, `B`
(Total 90, Math 10) ranks `Y`, `C` (Total 80, Math 30) ranks `X`. -/
def marksTieTest : String → StudentData := fun s =>
  if s = "A" then
    { prefs := ["X"],
      scores := fun key => if key = "Total Score" then some 80 else if key = "Math" then some 50 else none }
  else if s = "B" then
    { prefs := ["Y"],
      scores := fun key => if key = "Total Score" then some 90 else if key = "Math" then some 10 else none }
  else if s = "C" then
    { prefs := ["X"],
      scores := fun key => if key = "Total Score" then some 80 else if key = "Math" then some 30 else none }
  else { prefs := [], scores := fun _ => none }

/-- Catalog for the tiebreak scenario: `X` and `Y` share group `G` with group
constraint 2; `X` breaks ties on `Math`. -/
def catTieTest : Catalog :=
  [("X", { capacity := none, group := some "G", groupConstraint := some 2,
           subjectCriteria := [], tiebreakerSubjects := ["Math"] }),
   ("Y", { capacity := none, group := some "G", groupConstraint := some 2,
            subjectCriteria := [], tiebreakerSubjects := [] })]

def runTieTest : LoopState :=
  deferred_acceptance_with_displacement ["A", "B", "C"] marksTieTest catTieTest 1

/-- A one-student roster for witnesses: `A` ranks `X`, Total 60, Math 60. -/
def marksSimple : String → StudentData := fun s =>
  if s = "A" then
    { prefs := ["X"],
      scores := fun key => if key = "Total Score" then some 60 else if key = "Math" then some 60 else none }
  else { prefs := [], scores := fun _ => none }

/-- The single catalog entry of the witness catalog. -/
def infoSimple : CourseInfo :=
  { capacity := some 2, group := none, groupConstraint := none,
    subjectCriteria := [("Math", (">=", (50 : ℚ)))], tiebreakerSubjects := [] }

/-- Witness catalog: ungrouped `X` with capacity 2 and criterion `Math >= 50`. -/
def catSimple : Catalog := [("X", infoSimple)]


/-! ### Claim theorems -/

/-- C1, counterexample: the claim "every course with bounded capacity has at
most `capacity` assigned students — including courses that belong to a group"
is false.  Course `X` has capacity 1, yet the run ends with both students
assigned to it, because the group branch of `try_place_student_in_course`
checks only the group constraint and never the course's own capacity. -/
theorem c1_capacity_counterexample :
    (catCapTest.lookup "X").map (fun info => info.capacity) = some (some 1) ∧
    runCapTest.ps.courseMatches "X" = ["A", "B"] ∧
    ¬ ((runCapTest.ps.courseMatches "X").length ≤ 1) := by
  refine ⟨by decide, by decide, by decide⟩

/-- C1, amended: at every state the loop reaches, every course that takes the
non-group branch (group cell absent or the falsy empty string) and has a
parseable capacity `cv` holds at most `max cv 0` students; grouped courses
are not bounded by their own capacity. -/
theorem c1_ungrouped_capacity (roster : List String) (marks : String → StudentData)
    (catalog : Catalog) (P : ℕ) (hnd : roster.Nodup) (f : ℕ) (c : String)
    (info : CourseInfo) (cv : ℤ)
    (hl : catalog.lookup c = some info) (hug : info.group = none ∨ info.group = some "")
    (hcv : info.capacity.map pyInt = some cv) :
    (((run marks catalog P f (initLS roster)).ps.courseMatches c).length : ℤ) ≤ max cv 0 :=
  (inv_run f (inv_init marks catalog P hnd)).capOk c info cv hl hug hcv

/-- Witness for the amended C1 at a concrete input. -/
theorem c1_ungrouped_capacity_witness :
    (["A"] : List String).Nodup ∧
    catSimple.lookup "X" = some infoSimple ∧
    (((run marksSimple catSimple 1 3 (initLS ["A"])).ps.courseMatches "X").length : ℤ) ≤ max 2 0 :=
  ⟨by decide, by decide,
    c1_ungrouped_capacity ["A"] marksSimple catSimple 1 (by decide) 3 "X" infoSimple
      2 (by decide) (Or.inl rfl) (by decide)⟩

/-- C5: every student in a course's assignment list, at every state the loop
reaches, satisfies that course's subject criteria under the fail-closed
comparison (a missing or non-numeric score fails every criterion, which is
built into `compare_subject_score`). -/
theorem c5_criteria_invariant (roster : List String) (marks : String → StudentData)
    (catalog : Catalog) (P : ℕ) (hnd : roster.Nodup) (f : ℕ) (c s : String)
    (hmem : s ∈ (run marks catalog P f (initLS roster)).ps.courseMatches c) :
    ∃ info, catalog.lookup c = some info ∧ meetsCriteria marks s info = true :=
  (inv_run f (inv_init marks catalog P hnd)).crit c s hmem

/-- Witness for C5 at a concrete input. -/
theorem c5_criteria_invariant_witness :
    (["A"] : List String).Nodup ∧
    "A" ∈ (run marksSimple catSimple 1 3 (initLS ["A"])).ps.courseMatches "X" ∧
    (∃ info, catSimple.lookup "X" = some info ∧ meetsCriteria marksSimple "A" info = true) :=
  ⟨by decide, by decide,
    c5_criteria_invariant ["A"] marksSimple catSimple 1 (by decide) 3 "X" "A" (by decide)⟩

/-- C6: at every state the loop reaches, no assignment list repeats a student
and no student sits in two different courses' lists (the caller's re-place
bookkeeping and the displacement removal always detach a student from their
prior course first). -/
theorem c6_global_uniqueness (roster : List String) (marks : String → StudentData)
    (catalog : Catalog) (P : ℕ) (hnd : roster.Nodup) (f : ℕ) :
    (∀ c, ((run marks catalog P f (initLS roster)).ps.courseMatches c).Nodup) ∧
    (∀ c c2 s, s ∈ (run marks catalog P f (initLS roster)).ps.courseMatches c →
      s ∈ (run marks catalog P f (initLS roster)).ps.courseMatches c2 → c = c2) := by
  have hInv := inv_run f (inv_init marks catalog P hnd)
  refine ⟨hInv.mnd, fun c c2 s h1 h2 => ?_⟩
  have e1 := hInv.ma c s h1
  have e2 := hInv.ma c2 s h2
  rw [e1] at e2
  exact Option.some.inj e2

/-- Witness for C6 at a concrete input. -/
theorem c6_global_uniqueness_witness :
    (["A", "B"] : List String).Nodup ∧
    ((run marksCapTest catCapTest 1 4 (initLS ["A", "B"])).ps.courseMatches "X").Nodup :=
  ⟨by decide, (c6_global_uniqueness ["A", "B"] marksCapTest catCapTest 1 (by decide) 4).1 "X"⟩

/-- C7: a placement attempt that returns the `Rejected` outcome (Python
`False`) leaves the whole placement state — in particular the
course-to-students map and the student-to-course index — exactly as it was.
Every `return False` path of `try_place_student_in_course` runs before any
mutation. -/
theorem c7_rejected_no_side_effects (sName : String) (marks : String → StudentData)
    (preferred : String) (catalog : Catalog) (st : PState)
    (hres : (try_place_student_in_course sName marks preferred catalog st).1 = .rejected) :
    (try_place_student_in_course sName marks preferred catalog st).2 = st :=
  try_place_rejected_id sName marks preferred catalog st hres

/-- Witness for C7: an attempt at an unknown course is rejected and leaves
the state untouched. -/
theorem c7_rejected_no_side_effects_witness :
    (try_place_student_in_course "A" marksSimple "Z" catSimple emptyPS).1 = .rejected ∧
    (try_place_student_in_course "A" marksSimple "Z" catSimple emptyPS).2 = emptyPS :=
  ⟨by decide, c7_rejected_no_side_effects "A" marksSimple "Z" catSimple emptyPS (by decide)⟩

/-- C8: the matching loop is deterministic — it is a pure function of the
roster, the marks, the catalog and the preference depth, so two runs on
identical inputs produce identical assignment maps and identical
student-to-course indexes. -/
theorem c8_determinism (r1 r2 : List String) (m1 m2 : String → StudentData)
    (c1 c2 : Catalog) (p1 p2 : ℕ)
    (hr : r1 = r2) (hm : m1 = m2) (hc : c1 = c2) (hp : p1 = p2) :
    (deferred_acceptance_with_displacement r1 m1 c1 p1).ps.courseMatches
      = (deferred_acceptance_with_displacement r2 m2 c2 p2).ps.courseMatches ∧
    (deferred_acceptance_with_displacement r1 m1 c1 p1).ps.assign
      = (deferred_acceptance_with_displacement r2 m2 c2 p2).ps.assign := by
  subst hr
  subst hm
  subst hc
  subst hp
  exact ⟨rfl, rfl⟩

/-- Witness for C8 at a concrete input. -/
theorem c8_determinism_witness :
    (deferred_acceptance_with_displacement ["A"] marksSimple catSimple 1).ps.courseMatches
      = (deferred_acceptance_with_displacement ["A"] marksSimple catSimple 1).ps.courseMatches ∧
    (deferred_acceptance_with_displacement ["A"] marksSimple catSimple 1).ps.assign
      = (deferred_acceptance_with_displacement ["A"] marksSimple catSimple 1).ps.assign :=
  c8_determinism ["A"] ["A"] marksSimple marksSimple catSimple catSimple 1 1 rfl rfl rfl rfl

/-- C9: the loop drains both queues within `|roster| * (P + |roster|)`
iterations (each iteration performs at most one placement attempt), so the
claimed bound on placement attempts holds.  The proof runs the loop for that
much fuel and shows the result is terminal, via a potential that strictly
decreases at every iteration from an initial value of `|roster| * (P + 1)`. -/
theorem c9_termination (roster : List String) (marks : String → StudentData)
    (catalog : Catalog) (P : ℕ) (hnd : roster.Nodup) :
    isTerminal (run marks catalog P (roster.length * (P + roster.length)) (initLS roster)) := by
  have hInv := inv_init marks catalog P hnd
  have hterm := run_terminal_of_fuel (roster.length * (P + 1)) hInv (by rw [phi_init])
  refine run_mono ?_ hterm
  rcases Nat.eq_zero_or_pos roster.length with h | h
  · rw [h]
    simp
  · have h2 : P + 1 ≤ P + roster.length := by omega
    exact Nat.mul_le_mul_left _ h2

/-- Witness for C9 at a concrete input. -/
theorem c9_termination_witness :
    (["A", "B"] : List String).Nodup ∧
    isTerminal (run marksCapTest catCapTest 1 ((["A", "B"] : List String).length * (1 + (["A", "B"] : List String).length)) (initLS ["A", "B"])) :=
  ⟨by decide, c9_termination ["A", "B"] marksCapTest catCapTest 1 (by decide)⟩

/-- C10: `read_course_data` (lines 45-52) fills a missing `Capacity` cell
from the row's `Group Constraint` cell when that is present, and with
`float('inf')` (unbounded) when it too is missing; the function is total, so
a missing capacity is never rejected as an input error. -/
theorem c10_missing_capacity_fallback :
    (∀ g : ℚ, read_course_capacity none (some g) = RawCapacity.val g) ∧
    read_course_capacity none none = RawCapacity.infinite :=
  ⟨fun _ => rfl, rfl⟩



/-- C2, counterexample: the claim "a Missing Total Score is treated as −∞
(such students are selected first)" is false.  In this run the group is full
with `A` (Total 50) and `B` (Total missing); challenger `C` (Total 60)
arrives.  Under the claim, `B` would be the incumbent selected and evicted;
the code's `min` under NaN-propagating comparisons selects `A` instead, so
the run ends with `B` still placed and `A` displaced and unplaced. -/
theorem c2_missing_score_counterexample :
    totalScoreOf marksNanTest "B" = none ∧
    totalScoreOf marksNanTest "A" = some 50 ∧
    totalScoreOf marksNanTest "C" = some 60 ∧
    runNanTest.ps.assign "B" = some "Y" ∧
    runNanTest.ps.assign "A" = none ∧
    runNanTest.ps.assign "C" = some "X" ∧
    runNanTest.ps.unplaced.getLast? = some "A" := by
  refine ⟨by decide, by decide, by decide, by decide, by decide, by decide, by decide⟩

/-- C2, amended: when the group-full arm of the transaction displaces a
student `d` from the cohort `c0 :: rest`, then `d` is a cohort member and:
either `d` is the left-fold minimum of the cohort under the NaN-propagating
Total-Score comparison (`nanLt`, false when either side is Missing — Missing
is not treated as −∞), with no cohort member strictly below `d` under that
comparison; or the challenger's Total Score ties the fold minimum's, the
course's tiebreak list is non-empty, and `d` is re-selected as the left-fold
minimum over the whole cohort of the lexicographic tiebreak tuple (Missing
→ −∞), with no cohort member's tuple strictly below `d`'s. -/
theorem c2_incumbent_selection (sName : String) (marks : String → StudentData)
    (preferred : String) (info : CourseInfo) (gcs : List String)
    (c0 : String) (rest : List String) (st : PState) (d : String) (st2 : PState)
    (hres : tryPlaceGroupFull sName marks preferred info gcs (c0 :: rest) st
      = (.displaced d, st2)) :
    d ∈ c0 :: rest ∧
    ((d = pyMinBy nanLt (totalScoreOf marks) c0 rest ∧
      ∀ y ∈ c0 :: rest, nanLt (totalScoreOf marks y) (totalScoreOf marks d) = false) ∨
     (nanEq (totalScoreOf marks sName)
        (totalScoreOf marks (pyMinBy nanLt (totalScoreOf marks) c0 rest)) = true ∧
      info.tiebreakerSubjects ≠ [] ∧
      d = pyMinBy tupLt (tieTuple marks info.tiebreakerSubjects) c0 rest ∧
      ∀ y ∈ c0 :: rest, tupLt (tieTuple marks info.tiebreakerSubjects y)
        (tieTuple marks info.tiebreakerSubjects d) = false)) := by
  unfold tryPlaceGroupFull at hres
  split at hres
  · cases hres
  · rename_i t0 ct0 hct0
    injection hct0 with he1 he2
    subst he1
    subst he2
    split at hres
    · cases hres
    · rename_i ct2 hct2
      split at hres
      · rename_i hgt
        injection hres with ha hb
        injection ha with ha
        subst ha
        refine ⟨pyMinBy_mem nanLt (totalScoreOf marks) rest c0, Or.inl ⟨rfl, ?_⟩⟩
        intro y hy
        exact pyMinBy_not_lt nanLt (totalScoreOf marks)
          (fun a b c hab hbc => nanLt_trans hab hbc) nanLt_irrefl rest c0 y hy
      · rename_i hgt
        split at hres
        · rename_i heq2
          split at hres
          · cases hres
          · rename_i t1 trest hts
            split at hres
            · rename_i htup
              injection hres with ha hb
              injection ha with ha
              subst ha
              rw [hts]
              refine ⟨pyMinBy_mem tupLt (tieTuple marks (t1 :: trest)) rest c0,
                Or.inr ⟨?_, by simp, rfl, ?_⟩⟩
              · rw [hct2]
                exact heq2
              · intro y hy
                exact pyMinBy_not_lt tupLt (tieTuple marks (t1 :: trest))
                  (fun a b c hab hbc => tupLt_trans hab hbc) tupLt_irrefl rest c0 y hy
            · cases hres
        · cases hres

/-- Witness for the amended C2, at the state of the missing-Total-Score run
where `C` challenges the full group `{A, B}` and displaces `A`. -/
theorem c2_incumbent_selection_witness :
    tryPlaceGroupFull "C" marksNanTest "X"
      { capacity := none, group := some "G", groupConstraint := some 2,
        subjectCriteria := [], tiebreakerSubjects := [] }
      ["X", "Y"] ["A", "B"] nanState2.ps
      = (.displaced "A",
        (tryPlaceGroupFull "C" marksNanTest "X"
          { capacity := none, group := some "G", groupConstraint := some 2,
            subjectCriteria := [], tiebreakerSubjects := [] }
          ["X", "Y"] ["A", "B"] nanState2.ps).2) ∧
    ("A" ∈ ["A", "B"] ∧
    (("A" = pyMinBy nanLt (totalScoreOf marksNanTest) "A" ["B"] ∧
      ∀ y ∈ ["A", "B"],
        nanLt (totalScoreOf marksNanTest y) (totalScoreOf marksNanTest "A") = false) ∨
     (nanEq (totalScoreOf marksNanTest "C")
        (totalScoreOf marksNanTest (pyMinBy nanLt (totalScoreOf marksNanTest) "A" ["B"])) = true ∧
      ([] : List String) ≠ [] ∧
      "A" = pyMinBy tupLt (tieTuple marksNanTest []) "A" ["B"] ∧
      ∀ y ∈ ["A", "B"], tupLt (tieTuple marksNanTest [] y)
        (tieTuple marksNanTest [] "A") = false))) := by
  have hpair : tryPlaceGroupFull "C" marksNanTest "X"
      { capacity := none, group := some "G", groupConstraint := some 2,
        subjectCriteria := [], tiebreakerSubjects := [] }
      ["X", "Y"] ["A", "B"] nanState2.ps
      = (.displaced "A",
        (tryPlaceGroupFull "C" marksNanTest "X"
          { capacity := none, group := some "G", groupConstraint := some 2,
            subjectCriteria := [], tiebreakerSubjects := [] }
          ["X", "Y"] ["A", "B"] nanState2.ps).2) := by
    have h1 : (tryPlaceGroupFull "C" marksNanTest "X"
        { capacity := none, group := some "G", groupConstraint := some 2,
          subjectCriteria := [], tiebreakerSubjects := [] }
        ["X", "Y"] ["A", "B"] nanState2.ps).1 = .displaced "A" := by decide
    exact Prod.ext h1 rfl
  exact ⟨hpair, c2_incumbent_selection "C" marksNanTest "X" _ ["X", "Y"] "A" ["B"]
    nanState2.ps "A" _ hpair⟩



/-- C3, counterexample: the claim "the challenger displaces the incumbent iff
the challenger's tiebreak tuple is strictly greater than the incumbent's" is
false.  Here the full group holds `A` (Total 80, Math 50) and `B` (Total 90,
Math 10); the Total-Score incumbent (fold minimum) is `A`, and challenger `C`
(Total 80, Math 30) ties `A` with a strictly smaller Math tuple — under the
claim `C` would get `TIE_LOSE` and everyone would stay put.  The code instead
re-selects the eviction target by tuple over the whole cohort, picks `B`
(Math 10), and `C` displaces `B`. -/
theorem c3_tiebreak_counterexample :
    totalScoreOf marksTieTest "C" = totalScoreOf marksTieTest "A" ∧
    nanLt (totalScoreOf marksTieTest "A") (totalScoreOf marksTieTest "B") = true ∧
    tupLt (tieTuple marksTieTest ["Math"] "C") (tieTuple marksTieTest ["Math"] "A") = true ∧
    runTieTest.ps.assign "C" = some "X" ∧
    runTieTest.ps.assign "A" = some "X" ∧
    runTieTest.ps.assign "B" = none := by
  refine ⟨by decide, by decide, by decide, by decide, by decide, by decide⟩

/-- C3, amended: in the group-full arm, when the challenger's Total Score
ties the fold-minimum incumbent's: with an empty tiebreak list the attempt is
rejected and the state (hence every incumbent's placement) is unchanged; with
a non-empty tiebreak list the challenger causes a displacement iff the
challenger's lexicographic tuple is strictly greater than the minimal tuple
over the whole cohort, and the student evicted is that cohort-wide
tuple-minimal student — not necessarily the Total-Score incumbent. -/
theorem c3_tie_outcome (sName : String) (marks : String → StudentData)
    (preferred : String) (info : CourseInfo) (gcs : List String)
    (c0 : String) (rest : List String) (st : PState) (ct : ℚ)
    (hct : totalScoreOf marks sName = some ct)
    (hgt : nanGt (some ct)
      (totalScoreOf marks (pyMinBy nanLt (totalScoreOf marks) c0 rest)) = false)
    (heq : nanEq (some ct)
      (totalScoreOf marks (pyMinBy nanLt (totalScoreOf marks) c0 rest)) = true) :
    (info.tiebreakerSubjects = [] →
      tryPlaceGroupFull sName marks preferred info gcs (c0 :: rest) st = (.rejected, st)) ∧
    (∀ t0 trest, info.tiebreakerSubjects = t0 :: trest →
      (tupLt (tieTuple marks (t0 :: trest) (pyMinBy tupLt (tieTuple marks (t0 :: trest)) c0 rest))
          (tieTuple marks (t0 :: trest) sName) = true →
        tryPlaceGroupFull sName marks preferred info gcs (c0 :: rest) st
          = (.displaced (pyMinBy tupLt (tieTuple marks (t0 :: trest)) c0 rest),
            displaceAndPlace sName preferred gcs
              (pyMinBy tupLt (tieTuple marks (t0 :: trest)) c0 rest) st)) ∧
      (tupLt (tieTuple marks (t0 :: trest) (pyMinBy tupLt (tieTuple marks (t0 :: trest)) c0 rest))
          (tieTuple marks (t0 :: trest) sName) = false →
        tryPlaceGroupFull sName marks preferred info gcs (c0 :: rest) st = (.rejected, st))) := by
  have hbase : tryPlaceGroupFull sName marks preferred info gcs (c0 :: rest) st
      = (match info.tiebreakerSubjects with
        | [] => (.rejected, st)
        | t0 :: trest =>
          if tupLt (tieTuple marks (t0 :: trest) (pyMinBy tupLt (tieTuple marks (t0 :: trest)) c0 rest))
              (tieTuple marks (t0 :: trest) sName) then
            (.displaced (pyMinBy tupLt (tieTuple marks (t0 :: trest)) c0 rest),
              displaceAndPlace sName preferred gcs
                (pyMinBy tupLt (tieTuple marks (t0 :: trest)) c0 rest) st)
          else (.rejected, st)) := by
    unfold tryPlaceGroupFull
    rw [hct]
    simp only []
    rw [if_neg (by rw [hgt]; exact Bool.false_ne_true)]
    rw [if_pos heq]
  constructor
  · intro hts
    rw [hbase, hts]
  · intro t0 trest hts
    constructor
    · intro htup
      rw [hbase, hts]
      simp only []
      rw [if_pos htup]
    · intro htup
      rw [hbase, hts]
      simp only []
      rw [if_neg (by rw [htup]; exact Bool.false_ne_true)]

/-- Witness for the amended C3, at the tiebreak-scenario state where `C` ties
`A` and evicts the tuple-minimal student `B`. -/
theorem c3_tie_outcome_witness :
    totalScoreOf marksTieTest "C" = some 80 ∧
    nanGt (some 80)
      (totalScoreOf marksTieTest (pyMinBy nanLt (totalScoreOf marksTieTest) "A" ["B"])) = false ∧
    nanEq (some 80)
      (totalScoreOf marksTieTest (pyMinBy nanLt (totalScoreOf marksTieTest) "A" ["B"])) = true ∧
    (tupLt (tieTuple marksTieTest ["Math"]
        (pyMinBy tupLt (tieTuple marksTieTest ["Math"]) "A" ["B"]))
        (tieTuple marksTieTest ["Math"] "C") = true →
      tryPlaceGroupFull "C" marksTieTest "X"
        { capacity := none, group := some "G", groupConstraint := some 2,
          subjectCriteria := [], tiebreakerSubjects := ["Math"] }
        ["X", "Y"] ["A", "B"] nanState2.ps
        = (.displaced (pyMinBy tupLt (tieTuple marksTieTest ["Math"]) "A" ["B"]),
          displaceAndPlace "C" "X" ["X", "Y"]
            (pyMinBy tupLt (tieTuple marksTieTest ["Math"]) "A" ["B"]) nanState2.ps)) := by
  refine ⟨by decide, by decide, by decide, ?_⟩
  have h := (c3_tie_outcome "C" marksTieTest "X"
    { capacity := none, group := some "G", groupConstraint := some 2,
      subjectCriteria := [], tiebreakerSubjects := ["Math"] }
    ["X", "Y"] "A" ["B"] nanState2.ps 80 (by decide) (by decide) (by decide)).2
    "Math" [] rfl
  exact h.1



/-- C4: whenever an iteration of the loop displaces a student `d`, the
evicted student is enqueued to the displaced queue with index `p + 1`, where
`p` is exactly the preference index that currently holds them: the tracked
preference of a placed student always equals the index at which they were
placed into their current course (`prefAt marks d p` names that course), so
`preference_tracker[d] + 1` is one past the preference that held them at
displacement time. -/
theorem c4_displacement_resumes_after_holder (roster : List String)
    (marks : String → StudentData) (catalog : Catalog) (P : ℕ) (hnd : roster.Nodup)
    (f : ℕ) (cur : String) (k : ℕ) (dq aq : List (String × ℕ)) (d : String)
    (hdq : dequeue (run marks catalog P f (initLS roster)) = some (cur, k, dq, aq))
    (hkP : ¬ P < k)
    (hpref : prefAt marks cur k ≠ "")
    (hres : (try_place_student_in_course cur marks (prefAt marks cur k) catalog
      (run marks catalog P f (initLS roster)).ps).1 = .displaced d) :
    ∃ c p, (run marks catalog P f (initLS roster)).ps.assign d = some c ∧
      (run marks catalog P f (initLS roster)).tracker d = some p ∧
      1 ≤ p ∧ p ≤ P ∧ prefAt marks d p = c ∧
      (step marks catalog P (run marks catalog P f (initLS roster))).displacedQ
        = dq ++ [(d, p + 1)] := by
  have hInv := inv_run f (inv_init marks catalog P hnd)
  have hcurU : (run marks catalog P f (initLS roster)).ps.assign cur = none := by
    rcases dequeue_spec hdq with ⟨hD, hA⟩ | ⟨hD, hdq2, hA⟩
    · exact (hInv.qokD (cur, k) (by rw [hD]; exact List.mem_cons_self _ _)).2.2.2
    · exact (hInv.qokA (cur, k) (by rw [hA]; exact List.mem_cons_self _ _)).2.2.2
  have hnm : ∀ c, cur ∉ (run marks catalog P f (initLS roster)).ps.courseMatches c :=
    not_mem_of_unassigned hInv.ma hcurU
  rcases try_place_view cur marks (prefAt marks cur k) catalog
      (run marks catalog P f (initLS roster)).ps hcurU hnm hInv.ma with
    hrej | ⟨_i1, _h1, _h2, hres1, _h3, _h4, _h5⟩ |
    ⟨info, gname, d2, cd, hlook, hmeets, hg, hge, hdneq, hcd, hres1, hm, ha⟩
  · rw [hrej] at hres
    cases hres
  · rw [hres1] at hres
    cases hres
  · rw [hres1] at hres
    injection hres with hdd
    subst hdd
    obtain ⟨p, hpd, hp1, hpP, hpc⟩ := hInv.tplaced d2 cd hcd
    refine ⟨cd, p, hcd, hpd, hp1, hpP, hpc, ?_⟩
    unfold step
    rw [hdq]
    simp only []
    unfold stepFrom
    rw [if_neg hkP, if_neg hpref]
    have hpair : try_place_student_in_course cur marks (prefAt marks cur k) catalog
        (run marks catalog P f (initLS roster)).ps
        = (.displaced d2, (try_place_student_in_course cur marks (prefAt marks cur k) catalog
          (run marks catalog P f (initLS roster)).ps).2) :=
      Prod.ext hres1 rfl
    rw [hpair]
    simp only []
    have htr : trackSet (run marks catalog P f (initLS roster)).tracker cur k d2 = some p := by
      show (if d2 = cur then some k else (run marks catalog P f (initLS roster)).tracker d2) = some p
      rw [if_neg hdneq]
      exact hpd
    rw [htr]
    rfl

/-- Witness for C4: in the missing-Total-Score scenario, two iterations in,
`C` displaces `A`, who was placed at preference 1 and is re-enqueued at
preference 2. -/
theorem c4_displacement_resumes_after_holder_witness :
    dequeue (run marksNanTest catNanTest 1 2 (initLS ["A", "B", "C"])) = some ("C", 1, [], []) ∧
    (∃ c p, (run marksNanTest catNanTest 1 2 (initLS ["A", "B", "C"])).ps.assign "A" = some c ∧
      (run marksNanTest catNanTest 1 2 (initLS ["A", "B", "C"])).tracker "A" = some p ∧
      1 ≤ p ∧ p ≤ 1 ∧ prefAt marksNanTest "A" p = c ∧
      (step marksNanTest catNanTest 1
        (run marksNanTest catNanTest 1 2 (initLS ["A", "B", "C"]))).displacedQ
        = [] ++ [("A", p + 1)]) :=
  ⟨by decide,
    c4_displacement_resumes_after_holder ["A", "B", "C"] marksNanTest catNanTest 1
      (by decide) 2 "C" 1 [] [] "A" (by decide) (by decide) (by decide) (by decide)⟩


end SecAlloc
